import Mathlib

/-!
Verification of the graph simulation engine of the Wolt-RL-Optimization backend
(src/backend/graph.py, appstate.py) against its natural-language specification.

The Python code is shallowly embedded: Python objects become structures, the
mutable object graph becomes explicit state passing (object references become
list indices), Python's process-global `random` module becomes an explicitly
threaded stream of draws, and class-scoped counters (`Order.current_id`,
`Driver.current_id`) become explicitly threaded numbers.  Operations that can
raise in Python (IndexError on list indexing, `random.choice` on an empty
sequence) return `Option`, with `none` for the raising run.
-/

namespace Wolt

/-- Order record (graph.py lines 6-22).  `order_id` is assigned from the
class-scoped counter `Order.current_id`, modelled by explicit threading in
`Order.init`.  Status flags mirror `is_picked_up` / `is_delivered`. -/
structure Order where
  order_id : ℕ
  pickup_node : ℕ
  dropoff_node : ℕ
  time_created : ℕ
  is_picked_up : Bool
  is_delivered : Bool
deriving DecidableEq, Repr

/-- Order.__init__ (graph.py lines 15-22): reads the class counter
`Order.current_id` as the new order's id and increments it.  The counter is
class-scoped in Python (shared by every instance in the process), so it is an
explicit in/out parameter here. -/
def Order.init (pickup_node dropoff_node time_created current_id : ℕ) : Order × ℕ :=
  ({ order_id := current_id
     pickup_node := pickup_node
     dropoff_node := dropoff_node
     time_created := time_created
     is_picked_up := false
     is_delivered := false }, current_id + 1)

/-- Driver record (graph.py lines 540-555).  `order` holds the index of the
driver's active order in the owning graph's `orders` list (a Python object
reference).  `delay` can become -1 (graph.py line 570 subtracts 1 from a
weight that may be 0), so it is an integer. -/
structure Driver where
  driver_id : ℕ
  current_node : ℕ
  delay : ℤ
  order : Option ℕ
  id : ℕ
deriving DecidableEq, Repr

/-- Driver.__init__ (graph.py lines 548-555): `id` is assigned from the
class-scoped counter `Driver.current_id` (explicitly threaded), while
`driver_id` is the constructor argument. -/
def Driver.init (driver_id current_node current_id : ℕ) : Driver × ℕ :=
  ({ driver_id := driver_id
     current_node := current_node
     delay := 0
     order := none
     id := current_id }, current_id + 1)

/-- Driver-creation loop of Graph.create_graph (graph.py lines 217-221 and
266-271): `for i in range(num_drivers): Driver(i, i % num_nodes, self)`,
threading the class-scoped `Driver.current_id`. -/
def initDrivers (num_drivers num_nodes current_id : ℕ) : List Driver × ℕ :=
  (List.range num_drivers).foldl
    (fun acc i =>
      let (d, c) := Driver.init i (i % num_nodes) acc.2
      (acc.1 ++ [d], c))
    ([], current_id)

/-- Graph.node_f (graph.py lines 178-180): `random.uniform(0.002, 0.1)` drawn
from the process-global `random` module — not from the seeded per-instance
`numpy.random.RandomState`.  The global module is modelled as a stream
`σ : ℕ → ℚ` of unit-interval draws together with a cursor position;
`random.uniform(a, b)` is `a + σ(pos)·(b - a)`. -/
def node_f (σ : ℕ → ℚ) (pos : ℕ) : ℚ × ℕ :=
  (1/500 + σ pos * (49/500), pos + 1)

/-- Node-rate creation in Graph.create_graph (graph.py line 213):
`self.nodes = [self.node_f() for i in range(self.num_nodes)]`.  Consumes
`num_nodes` consecutive draws from the global stream.  The construction seed
is not consulted here at all. -/
def mkNodes (σ : ℕ → ℚ) (num_nodes pos : ℕ) : List ℚ × ℕ :=
  (List.range num_nodes).foldl
    (fun acc _ =>
      let (v, p) := node_f σ acc.2
      (acc.1 ++ [v], p))
    ([], pos)

/-- Assignment command as built by routes.py lines 486-490 and by
rl_environment.py lines 169-173: `{'type': 'assign', 'order_id': ..,
'driver_id': ..}`. -/
structure Action where
  type : String
  order_id : ℕ
  driver_id : ℕ
deriving DecidableEq, Repr

/-- Simulation-state part of a Graph instance (graph.py lines 147-176).
Immutable construction outputs (`edges`, `path_matrix`) are functions; the
mutable per-tick state (`orders`, `drivers`, counters) are lists and numbers.
`order_counter` models the class-scoped `Order.current_id` as seen by this
single world. -/
structure GraphState where
  num_nodes : ℕ
  timestep : ℕ
  nodes : List ℚ
  edges : ℕ → ℕ → ℕ
  path_matrix : ℕ → ℕ → Option ℕ
  amount_of_orders : List ℕ
  drivers_orders : List ℤ
  orders : List Order
  drivers : List Driver
  order_counter : ℕ

/-- Graph.do_action (graph.py lines 348-352).  The body of the Python method
consists only of its docstring: it decodes nothing and mutates nothing, so the
embedding is the identity on the graph state. -/
def GraphState.do_action (g : GraphState) (_action : Action) : GraphState :=
  g

/-- AppState (appstate.py lines 1-8): holds an optional graph. -/
structure AppState where
  graph : Option GraphState
  train : Bool

/-- AppState.apply_action (appstate.py lines 35-44): `if self.graph:
self.graph.do_action(action)`. -/
def AppState.apply_action (s : AppState) (action : Action) : AppState :=
  match s.graph with
  | some g => { s with graph := some (g.do_action action) }
  | none => s

/-- Safe embedding of Python list assignment `l[i] = a` (raises IndexError
when `i` is out of range). -/
def listSet (l : List α) (i : ℕ) (a : α) : Option (List α) :=
  if i < l.length then some (l.set i a) else none

/-- Driver.time_step (graph.py lines 557-584).  Takes the owning graph's
`path_matrix` row lookup and `edges` weights plus the shared mutable `orders`
and `drivers_orders` lists; returns the updated driver and lists, or `none`
where Python would raise (dangling order reference, `drivers_orders[self.id]`
out of range). -/
def Driver.time_step (gpath : ℕ → ℕ → Option ℕ) (gedges : ℕ → ℕ → ℕ)
    (d : Driver) (orders : List Order) (dorders : List ℤ) :
    Option (Driver × List Order × List ℤ) :=
  if 0 < d.delay then
    some ({ d with delay := d.delay - 1 }, orders, dorders)
  else
    match d.order with
    | none => some (d, orders, dorders)
    | some oi =>
      match orders.get? oi with
      | none => none
      | some o =>
        if o.is_picked_up && !o.is_delivered then
          match gpath d.current_node o.dropoff_node with
          | none => some (d, orders, dorders)
          | some nxt =>
            let d' := { d with delay := (gedges d.current_node nxt : ℤ) - 1,
                               current_node := nxt }
            if nxt = o.dropoff_node then
              match listSet orders oi { o with is_delivered := true } with
              | none => none
              | some orders' =>
                match dorders.get? d.id with
                | none => none
                | some cnt => some (d', orders', dorders.set d.id (cnt - 1))
            else
              some (d', orders, dorders)
        else if !o.is_picked_up then
          match gpath d.current_node o.pickup_node with
          | none => some (d, orders, dorders)
          | some nxt =>
            let d' := { d with delay := (gedges d.current_node nxt : ℤ) - 1,
                               current_node := nxt }
            if nxt = o.pickup_node then
              match listSet orders oi { o with is_picked_up := true } with
              | none => none
              | some orders' => some (d', orders', dorders)
            else
              some (d', orders, dorders)
        else
          some (d, orders, dorders)

/-- Order-creation loop of Graph.time_step (graph.py lines 360-363):
`for i, node in enumerate(self.nodes)`, one global `random.random()` draw per
node (stream `σ`, indexed by node position within this tick) and, on a hit,
one `random.choice` over `[j for j in range(num_nodes) if j != i]` (modelled
by `ch i` reduced modulo the candidate count; the empty candidate list makes
`random.choice` raise, hence `none`). -/
def createOrdersGo (σ : ℕ → ℚ) (ch : ℕ → ℕ) :
    List (ℕ × ℚ) → GraphState → Option GraphState
  | [], st => some st
  | p :: rest, st =>
    match st.amount_of_orders.get? p.1 with
    | none => none
    | some amt =>
      if σ p.1 < p.2 ∧ amt < 3 then
        match ((List.range st.num_nodes).filter (fun j => j ≠ p.1)).get?
            (ch p.1 % ((List.range st.num_nodes).filter (fun j => j ≠ p.1)).length) with
        | none => none
        | some dropoff =>
          createOrdersGo σ ch rest
            { st with
                orders := st.orders ++ [(Order.init p.1 dropoff st.timestep st.order_counter).1]
                order_counter := (Order.init p.1 dropoff st.timestep st.order_counter).2
                amount_of_orders := st.amount_of_orders.set p.1 (amt + 1) }
      else
        createOrdersGo σ ch rest st

/-- Entry point of the creation loop: iterate over `enumerate(self.nodes)`. -/
def createOrders (σ : ℕ → ℚ) (ch : ℕ → ℕ) (g : GraphState) : Option GraphState :=
  createOrdersGo σ ch g.nodes.enum g

/-- Driver loop of Graph.time_step (graph.py lines 366-367): each driver's
`time_step` runs in list order against the shared `orders` and
`drivers_orders`. -/
def runDrivers (gpath : ℕ → ℕ → Option ℕ) (gedges : ℕ → ℕ → ℕ) :
    List Driver → List Order → List ℤ → Option (List Driver × List Order × List ℤ)
  | [], orders, dorders => some ([], orders, dorders)
  | d :: rest, orders, dorders =>
    match d.time_step gpath gedges orders dorders with
    | none => none
    | some (d', orders', dorders') =>
      match runDrivers gpath gedges rest orders' dorders' with
      | none => none
      | some (rest', orders'', dorders'') => some (d' :: rest', orders'', dorders'')

/-- Graph.time_step (graph.py lines 354-367): increment the tick counter,
run the stochastic order-creation loop, then step every driver. -/
def GraphState.time_step (σ : ℕ → ℚ) (ch : ℕ → ℕ) (g : GraphState) : Option GraphState :=
  match createOrders σ ch { g with timestep := g.timestep + 1 } with
  | none => none
  | some g1 =>
    match runDrivers g1.path_matrix g1.edges g1.drivers g1.orders g1.drivers_orders with
    | none => none
    | some (drivers', orders', dorders') =>
      some { g1 with drivers := drivers', orders := orders', drivers_orders := dorders' }

/-- State of one single-source run inside Graph.precompute_matrices
(graph.py lines 286-342): `distances` and `previous` arrays (`-1` becomes
`none`), the heapq priority queue as a list of `(distance, node)` entries,
the `visited` set, and the rows of `distance_matrix` / `path_matrix` being
filled for this source (np.inf becomes `⊤`, `-1` becomes `none`). -/
structure DState (n : ℕ) where
  distances : Fin n → ℕ∞
  previous : Fin n → Option (Fin n)
  pq : List (ℕ × Fin n)
  visited : Finset (Fin n)
  distRow : Fin n → ℕ∞
  pathRow : Fin n → Option (Fin n)

/-- Minimum entry of a nonempty priority queue under Python's lexicographic
tuple order on `(distance, node)`; `heapq.heappop` returns exactly this entry
(all entries are distinct in reachable states, see `relaxNbr`). -/
def pqMinAux {n : ℕ} : (ℕ × Fin n) → List (ℕ × Fin n) → (ℕ × Fin n)
  | a, [] => a
  | a, b :: l => pqMinAux (if a.1 < b.1 ∨ (a.1 = b.1 ∧ a.2 ≤ b.2) then a else b) l

/-- First-step reconstruction loop inside Graph.precompute_matrices
(graph.py lines 318-324): `while previous[node] != source and
previous[node] != -1: node = previous[node]`.  The while loop is modelled
with fuel; the caller passes fuel `d + 1` which exceeds the chain length
(distances strictly decrease along `previous`). -/
def traceback {n : ℕ} (previous : Fin n → Option (Fin n)) (s : Fin n) :
    ℕ → Fin n → Fin n
  | 0, node => node
  | fuel + 1, node =>
    match previous node with
    | some p => if p = s then node else traceback previous s fuel p
    | none => node

/-- Branches of graph.py lines 311-324 computing `path_matrix[source,
current]`: self-loop, direct neighbour (`previous[u] == source`, on which the
traceback loop immediately stops at `u` as well), and the traceback. -/
def firstHop {n : ℕ} (st : DState n) (s u : Fin n) (d : ℕ) : Fin n :=
  if u = s then u else traceback st.previous s (d + 1) u

/-- Neighbour relaxation of graph.py lines 327-342 for one candidate
neighbour `v` of the settled node `u` (settled at distance `d`): skip visited
nodes and non-edges (`weight 0`); otherwise update `distances`/`previous` and
push onto the queue when strictly closer.  Pushes for one node carry strictly
decreasing keys, so no queue entry is ever duplicated. -/
def relaxNbr {n : ℕ} (w : Fin n → Fin n → ℕ) (u : Fin n) (d : ℕ)
    (st : DState n) (v : Fin n) : DState n :=
  if v ∈ st.visited then st
  else if 0 < w u v then
    let nd := d + w u v
    if (nd : ℕ∞) < st.distances v then
      { st with distances := Function.update st.distances v (nd : ℕ∞)
                previous := Function.update st.previous v (some u)
                pq := st.pq ++ [(nd, v)] }
    else st
  else st

/-- The full `for neighbor in range(self.num_nodes)` loop. -/
def relaxAll {n : ℕ} (w : Fin n → Fin n → ℕ) (u : Fin n) (d : ℕ)
    (st : DState n) : DState n :=
  (List.finRange n).foldl (relaxNbr w u d) st

/-- Settlement of a popped entry `m` (graph.py lines 305-324): mark visited,
record `distance_matrix[source][u] = d` and `path_matrix[source][u]`. -/
def settleState {n : ℕ} (st : DState n) (s : Fin n) (m : ℕ × Fin n)
    (pq' : List (ℕ × Fin n)) : DState n :=
  { st with
      pq := pq'
      visited := insert m.2 st.visited
      distRow := Function.update st.distRow m.2 ((m.1 : ℕ) : ℕ∞)
      pathRow := Function.update st.pathRow m.2 (some (firstHop st s m.2 m.1)) }

/-- Main `while pq:` loop of graph.py lines 298-342, with fuel (the caller
provides enough fuel for the queue to drain, see `dloop_pq_empty`).  Each
iteration pops the minimum entry; already-visited nodes are skipped (lazy
deletion), otherwise the node is settled: recorded in the matrix rows and its
neighbours relaxed. -/
def dloop {n : ℕ} (w : Fin n → Fin n → ℕ) (s : Fin n) : ℕ → DState n → DState n
  | 0, st => st
  | fuel + 1, st =>
    match st.pq with
    | [] => st
    | a :: rest =>
      let m := pqMinAux a rest
      let pq' := (a :: rest).erase m
      if m.2 ∈ st.visited then
        dloop w s fuel { st with pq := pq' }
      else
        dloop w s fuel (relaxAll w m.2 m.1 (settleState st s m pq'))

/-- Initial per-source state of graph.py lines 287-296. -/
def dijkstraInit (n : ℕ) (s : Fin n) : DState n :=
  { distances := Function.update (fun _ => (⊤ : ℕ∞)) s (0 : ℕ∞)
    previous := fun _ => none
    pq := [(0, s)]
    visited := ∅
    distRow := fun _ => (⊤ : ℕ∞)
    pathRow := fun _ => none }

/-- One single-source Dijkstra run of Graph.precompute_matrices. -/
def dijkstraFrom {n : ℕ} (w : Fin n → Fin n → ℕ) (s : Fin n) : DState n :=
  dloop w s (n * (n + 1) + 1) (dijkstraInit n s)

/-- Graph.precompute_matrices (graph.py lines 274-346): one Dijkstra run per
source builds `distance_matrix` and `path_matrix`.  Edge weights are the
integer adjacency matrix `w` (`0` = no edge); distances are integer sums
(float64 arithmetic on integer values of this size is exact). -/
def precompute_matrices {n : ℕ} (w : Fin n → Fin n → ℕ) :
    (Fin n → Fin n → ℕ∞) × (Fin n → Fin n → Option (Fin n)) :=
  (fun s => (dijkstraFrom w s).distRow, fun s => (dijkstraFrom w s).pathRow)

/-- Weight of a walk starting at `a` through the successive nodes of `p`. -/
def pathWeight {n : ℕ} (w : Fin n → Fin n → ℕ) : Fin n → List (Fin n) → ℕ
  | _, [] => 0
  | a, b :: l => w a b + pathWeight w b l

/-- Walk validity: every consecutive hop is an edge of positive weight. -/
def IsPath {n : ℕ} (w : Fin n → Fin n → ℕ) : Fin n → List (Fin n) → Prop
  | _, [] => True
  | a, b :: l => 0 < w a b ∧ IsPath w b l

/-- Final node of a walk. -/
def pathEnd {n : ℕ} : Fin n → List (Fin n) → Fin n
  | a, [] => a
  | _, b :: l => pathEnd b l

/-- There is a walk from `a` to `b` of total weight `c`. -/
def HasPW {n : ℕ} (w : Fin n → Fin n → ℕ) (a b : Fin n) (c : ℕ) : Prop :=
  ∃ p, IsPath w a p ∧ pathEnd a p = b ∧ pathWeight w a p = c

/-- `c` is the exact shortest-path distance from `a` to `b`: attained by a
walk, and a lower bound of all walk weights. -/
def IsDistW {n : ℕ} (w : Fin n → Fin n → ℕ) (a b : Fin n) (c : ℕ) : Prop :=
  HasPW w a b c ∧ ∀ c', HasPW w a b c' → c ≤ c'

/-- Condition under which `relaxNbr` updates neighbour `v` of the node
settled at distance `d`. -/
def relaxCond {n : ℕ} (w : Fin n → Fin n → ℕ) (u : Fin n) (d : ℕ)
    (st : DState n) (v : Fin n) : Prop :=
  v ∉ st.visited ∧ 0 < w u v ∧ ((d + w u v : ℕ) : ℕ∞) < st.distances v

/-- First-hop specification for a settled node `u` of the run from source
`s`: the recorded hop is `u` itself on the diagonal, and otherwise an actual
first edge of a shortest path — a positive edge out of `s` whose weight plus
the weight of some walk from the hop to `u` is exactly the settled
distance. -/
def PathRowOK {n : ℕ} (w : Fin n → Fin n → ℕ) (s : Fin n) (st : DState n)
    (u : Fin n) : Prop :=
  if u = s then st.pathRow u = some u
  else ∃ m c₁, st.pathRow u = some m ∧ 0 < w s m ∧
    st.distances u = ((w s m + c₁ : ℕ) : ℕ∞) ∧ HasPW w m u c₁

/-- Loop invariant of one Dijkstra run from source `s` over weights `w`. -/
structure DInv {n : ℕ} (w : Fin n → Fin n → ℕ) (s : Fin n) (st : DState n) :
    Prop where
  dist_s : st.distances s = (0 : ℕ∞)
  settled : ∀ u ∈ st.visited, ∃ c : ℕ, st.distances u = (c : ℕ∞) ∧ IsDistW w s u c ∧
    st.distRow u = (c : ℕ∞)
  sound : ∀ v (c : ℕ), st.distances v = (c : ℕ∞) → HasPW w s v c
  frontier : ∀ x ∈ st.visited, ∀ v, v ∉ st.visited → 0 < w x v →
    st.distances v ≤ st.distances x + (w x v : ℕ∞)
  inpq : ∀ v, v ∉ st.visited → st.distances v ≠ ⊤ →
    ∃ k : ℕ, (k, v) ∈ st.pq ∧ (k : ℕ∞) = st.distances v
  pqk : ∀ kv ∈ st.pq, st.distances kv.2 ≤ (kv.1 : ℕ∞) ∧ HasPW w s kv.2 kv.1
  unrow : ∀ v, v ∉ st.visited → st.distRow v = ⊤ ∧ st.pathRow v = none
  prevSome : ∀ v t, st.previous v = some t → t ∈ st.visited ∧ 0 < w t v ∧
    st.distances v = st.distances t + (w t v : ℕ∞)
  prevNone : ∀ v, st.previous v = none → v = s ∨ st.distances v = ⊤
  pathOk : ∀ u ∈ st.visited, PathRowOK w s st u

/-- Path-following predicate of claim C3: starting from `i`, repeatedly
applying the next-hop matrix (toward fixed destination `j`) reaches `j`,
every consecutive pair is joined by an edge of positive weight, and the edge
weights sum to exactly `c`. -/
inductive Follows {n : ℕ} (w : Fin n → Fin n → ℕ)
    (nxt : Fin n → Fin n → Option (Fin n)) (j : Fin n) : Fin n → ℕ → Prop
  | done : Follows w nxt j j 0
  | step (i m : Fin n) (c : ℕ) : nxt i j = some m → 0 < w i m →
      Follows w nxt j m c → Follows w nxt j i (w i m + c)

/-- Weighted adjacency of the 3-node line graph of the end-to-end scenario:
edges 0–1 and 1–2, both of weight 1. -/
def lineW : Fin 3 → Fin 3 → ℕ :=
  fun i j =>
    if (i = 0 ∧ j = 1) ∨ (i = 1 ∧ j = 0) ∨ (i = 1 ∧ j = 2) ∨ (i = 2 ∧ j = 1) then 1 else 0

/-- ℕ-indexed view of a `Fin n` matrix (numpy indexing out of range would
raise; the simulation only ever indexes in range). -/
def liftMat {n : ℕ} (w : Fin n → Fin n → ℕ) : ℕ → ℕ → ℕ :=
  fun i j => if hi : i < n then if hj : j < n then w ⟨i, hi⟩ ⟨j, hj⟩ else 0 else 0

/-- ℕ-indexed view of a `Fin n` next-hop matrix. -/
def liftPath {n : ℕ} (p : Fin n → Fin n → Option (Fin n)) : ℕ → ℕ → Option ℕ :=
  fun i j =>
    if hi : i < n then if hj : j < n then (p ⟨i, hi⟩ ⟨j, hj⟩).map Fin.val else none
    else none

/-- End-to-end scenario world (spec.md §8): 3-node line graph, one driver at
node 0, one order pickup 0 / dropoff 2 created at tick 0 (its creation
incremented node 0's pending counter), matrices from precompute_matrices. -/
def c2Graph0 : GraphState :=
  { num_nodes := 3
    timestep := 0
    nodes := [1/100, 1/100, 1/100]
    edges := liftMat lineW
    path_matrix := liftPath (precompute_matrices lineW).2
    amount_of_orders := [1, 0, 0]
    drivers_orders := [0]
    orders := [(Order.init 0 2 0 0).1]
    drivers := [(Driver.init 0 0 0).1]
    order_counter := 1 }

/-- Modelled from the spec: the effect of the assign action (spec.md §4.5,
"attaches the order to the driver (driver.order = order); does not move the
driver immediately"), guarded by its preconditions (order exists and is not
Delivered, driver exists and has no active order).  The code that should
implement this, Graph.do_action (graph.py lines 348-352), is an empty stub,
so the effect is taken from the spec's words. -/
def assign_spec (g : GraphState) (order_id driver_id : ℕ) : Option GraphState :=
  match g.orders.enum.find? (fun p => p.2.order_id == order_id) with
  | none => none
  | some (oi, o) =>
    if o.is_delivered then none
    else
      match g.drivers.enum.find? (fun p => p.2.driver_id == driver_id) with
      | none => none
      | some (di, d) =>
        match d.order with
        | some _ => none
        | none =>
          (listSet g.drivers di { d with order := some oi }).map
            (fun ds => { g with drivers := ds })

/-- Iterated tick. -/
def tickN (σ : ℕ → ℚ) (ch : ℕ → ℕ) : ℕ → Option GraphState → Option GraphState
  | 0, og => og
  | k + 1, og => tickN σ ch k (og.bind (GraphState.time_step σ ch))

/-- Per-tick draw stream for the scenario: every draw is 1, which is at least
each node's rate of 1/100, so no extra order is created during the run. -/
def c2Draw : ℕ → ℚ := fun _ => 1

/-- Dropoff-choice stream for the scenario (never consulted in the run). -/
def c2Choice : ℕ → ℕ := fun _ => 0

/-- Observable projection of a world: tick counter, driver positions, driver
order references, per-order (picked-up, delivered, creation-tick) triples,
and the per-node pending counters. -/
def snapshot (og : Option GraphState) :
    Option (ℕ × List ℕ × List (Option ℕ) × List (Bool × Bool × ℕ) × List ℕ) :=
  og.map fun g =>
    (g.timestep, g.drivers.map Driver.current_node, g.drivers.map Driver.order,
      g.orders.map (fun o => (o.is_picked_up, o.is_delivered, o.time_created)),
      g.amount_of_orders)

/-- Minimal two-node world holding one pending order (id 0) and one idle
driver (id 0): the preconditions of the assign action all hold here. -/
def c1Graph : GraphState :=
  { num_nodes := 2
    timestep := 0
    nodes := [1/100, 1/100]
    edges := fun _ _ => 1
    path_matrix := fun _ j => some j
    amount_of_orders := [1, 0]
    drivers_orders := [0]
    orders := [(Order.init 0 1 0 0).1]
    drivers := [(Driver.init 0 0 0).1]
    order_counter := 1 }

/-- Unit-interval draw stream standing for the process-global `random`
module in the C5 evaluation. -/
def c5Stream : ℕ → ℚ :=
  fun k => (k : ℚ) / 10

/-- Scenario world right after `assign(order 0, driver 0)` (the assign effect
itself is spec-modelled, see `assign_spec`). -/
def c2S0 : GraphState :=
  { c2Graph0 with
      drivers := [{ driver_id := 0, current_node := 0, delay := 0, order := some 0, id := 0 }] }

/-- Scenario world after the first tick: the driver, already standing on the
pickup node, "moves" along the self-loop next hop `path_matrix[0][0] = 0`
with travel time `edges[0][0] = 0`, so its delay becomes -1 and it stays at
node 0, picking the order up. -/
def c2S1 : GraphState :=
  { c2Graph0 with
      timestep := 1
      orders := [{ order_id := 0, pickup_node := 0, dropoff_node := 2, time_created := 0,
                   is_picked_up := true, is_delivered := false }]
      drivers := [{ driver_id := 0, current_node := 0, delay := -1, order := some 0, id := 0 }] }

/-- Scenario world after the second tick: the driver hops 0 → 1. -/
def c2S2 : GraphState :=
  { c2Graph0 with
      timestep := 2
      orders := [{ order_id := 0, pickup_node := 0, dropoff_node := 2, time_created := 0,
                   is_picked_up := true, is_delivered := false }]
      drivers := [{ driver_id := 0, current_node := 1, delay := 0, order := some 0, id := 0 }] }

/-- Scenario world after the third tick: the driver hops 1 → 2 and the order
is delivered (note: the order stays attached to the driver, and
`drivers_orders[0]` is decremented to -1). -/
def c2S3 : GraphState :=
  { c2Graph0 with
      timestep := 3
      orders := [{ order_id := 0, pickup_node := 0, dropoff_node := 2, time_created := 0,
                   is_picked_up := true, is_delivered := true }]
      drivers := [{ driver_id := 0, current_node := 2, delay := 0, order := some 0, id := 0 }]
      drivers_orders := [-1] }

/-- Single-node world for the C10 totality analysis. -/
def c10Graph : GraphState :=
  { num_nodes := 1
    timestep := 0
    nodes := [1/10]
    edges := fun _ _ => 0
    path_matrix := fun _ _ => none
    amount_of_orders := [0]
    drivers_orders := []
    orders := []
    drivers := []
    order_counter := 0 }

/-- Undirected adjacency test over a set of edge pairs, mirroring the
adjacency list built at graph.py lines 83-86 (each pair inserted in both
directions). -/
def edgeAdjB {n : ℕ} (E : Finset (Fin n × Fin n)) (a b : Fin n) : Bool :=
  decide ((a, b) ∈ E) || decide ((b, a) ∈ E)

/-- Breadth-first traversal of one component (graph.py lines 96-107): FIFO
queue, neighbours marked visited at enqueue time and added to the component
together.  The while loop is modelled with fuel; each queue entry was freshly
visited when enqueued, so `2n + 2` fuel always drains the queue (only
soundness and coverage of the result are used in the proofs, neither needs
the queue drained). -/
def bfs {n : ℕ} (adj : Fin n → Fin n → Bool) :
    ℕ → List (Fin n) → Finset (Fin n) → Finset (Fin n) → Finset (Fin n) × Finset (Fin n)
  | 0, _, visited, comp => (visited, comp)
  | _ + 1, [], visited, comp => (visited, comp)
  | fuel + 1, node :: queue, visited, comp =>
    let fresh := (List.finRange n).filter (fun v => adj node v && decide (v ∉ visited))
    bfs adj fuel (queue ++ fresh) (visited ∪ fresh.toFinset) (comp ∪ fresh.toFinset)

/-- One step of the component-enumeration loop (graph.py lines 92-109): skip
already-visited start nodes, otherwise BFS a new component. -/
def componentsStep {n : ℕ} (adj : Fin n → Fin n → Bool)
    (acc : Finset (Fin n) × List (Finset (Fin n))) (start : Fin n) :
    Finset (Fin n) × List (Finset (Fin n)) :=
  if start ∈ acc.1 then acc
  else
    let r := bfs adj (2 * n + 2) [start] (insert start acc.1) {start}
    (r.1, acc.2 ++ [r.2])

/-- Connected components via BFS (graph.py lines 88-109): `for start in
range(num_nodes)` with one shared visited set. -/
def components {n : ℕ} (adj : Fin n → Fin n → Bool) : List (Finset (Fin n)) :=
  ((List.finRange n).foldl (componentsStep adj) (∅, [])).2

/-- Closest cross-component pair (graph.py lines 122-130): the first pair (in
iteration order) attaining the minimum of the distance oracle `ddist`
(Python's strict `<` update keeps the first minimizer).  Python iterates the
two component sets in unspecified hash order; sorted order is used here — the
proofs only use that the result is a cross pair. -/
def pickCross {n : ℕ} (ddist : Fin n × Fin n → ℚ) (A B : Finset (Fin n)) :
    Option (Fin n × Fin n) :=
  match (A.sort (· ≤ ·)).product (B.sort (· ≤ ·)) with
  | [] => none
  | q :: qs => some (qs.foldl (fun best q' => if ddist q' < ddist best then q' else best) q)

/-- Component-merging loop of graph.py lines 118-137: pop the two head
components, add the cheapest cross edge (normalized as `(min, max)`), append
the merged component.  The while loop is modelled with fuel; every iteration
shortens the list by one, so fuel = initial length always reaches a single
component. -/
def mergeLoop {n : ℕ} (ddist : Fin n × Fin n → ℚ) :
    ℕ → List (Finset (Fin n)) → Finset (Fin n × Fin n) → Finset (Fin n × Fin n)
  | 0, _, E => E
  | _ + 1, [], E => E
  | _ + 1, [_], E => E
  | fuel + 1, A :: B :: rest, E =>
    let E' :=
      match pickCross ddist A B with
      | some q => insert (min q.1 q.2, max q.1 q.2) E
      | none => E
    mergeLoop ddist fuel (rest ++ [A ∪ B]) E'

/-- ensure_connected (graph.py lines 76-139): compute components; if more
than one, repeatedly merge the first two with the cheapest cross edge. -/
def ensure_connected {n : ℕ} (ddist : Fin n × Fin n → ℚ)
    (E : Finset (Fin n × Fin n)) : Finset (Fin n × Fin n) :=
  if (components (edgeAdjB E)).length ≤ 1 then E
  else mergeLoop ddist (components (edgeAdjB E)).length (components (edgeAdjB E)) E

/-- Adjacency-matrix materialization (graph.py lines 258-263): every retained
pair gets the symmetric weight `max(1, round(dist * 10))`; the float rounding
`int(np.round(w * 10))` is the oracle `wfun`. -/
def materialize_edges {n : ℕ} (E : Finset (Fin n × Fin n))
    (wfun : Fin n → Fin n → ℕ) : Fin n → Fin n → ℕ :=
  fun a b =>
    if (a, b) ∈ E then max 1 (wfun a b)
    else if (b, a) ∈ E then max 1 (wfun b a)
    else 0

/-- Graph.create_graph (graph.py lines 182-271) with geometry and randomness
abstracted into oracles: `candidates` stands for the candidate edge set after
the k-nearest-neighbour phase, the random 35% removal and the random
long-range edges (lines 224-252 — any set can arise depending on positions
and seed), `ddist` for pairwise Euclidean distances, `wfun` for the rounded
scaled weights.  With `num_nodes < 2` or `num_edges <= 0` no edges are
created at all (lines 215-222); otherwise the candidates go through the
connectivity repair and are materialized. -/
def create_graph (num_nodes num_edges : ℕ)
    (candidates : Finset (Fin num_nodes × Fin num_nodes))
    (ddist : Fin num_nodes × Fin num_nodes → ℚ)
    (wfun : Fin num_nodes → Fin num_nodes → ℕ) :
    Fin num_nodes → Fin num_nodes → ℕ :=
  if num_nodes < 2 ∨ num_edges ≤ 0 then fun _ _ => 0
  else materialize_edges (ensure_connected ddist candidates) wfun

/-- Reachability along edges of positive weight. -/
def ReachW {n : ℕ} (w : Fin n → Fin n → ℕ) (a b : Fin n) : Prop :=
  Relation.ReflTransGen (fun x y => 0 < w x y) a b

/-- Single connected component: every node reaches every other through edges
of positive weight. -/
def ConnectedW {n : ℕ} (w : Fin n → Fin n → ℕ) : Prop :=
  ∀ a b : Fin n, ReachW w a b

/-- Reachability along an undirected pair set. -/
def ReachE {n : ℕ} (E : Finset (Fin n × Fin n)) (a b : Fin n) : Prop :=
  Relation.ReflTransGen (fun x y => edgeAdjB E x y = true) a b

/-- Invariant of the component-enumeration fold: the shared visited set is
covered by the collected components, and every collected component is
nonempty and reachable from one start node. -/
def CompInv {n : ℕ} (adj : Fin n → Fin n → Bool)
    (acc : Finset (Fin n) × List (Finset (Fin n))) : Prop :=
  (∀ v ∈ acc.1, ∃ C ∈ acc.2, v ∈ C) ∧
  (∀ C ∈ acc.2, C.Nonempty ∧
    ∃ st, ∀ x ∈ C, Relation.ReflTransGen (fun a b => adj a b = true) st x)

/-- Number of simultaneously Pending orders (created, not yet picked up)
whose pickup node is `i`. -/
def pendingCount (orders : List Order) (i : ℕ) : ℕ :=
  (orders.filter (fun o => o.pickup_node == i && !o.is_picked_up)).length

/-- Pending counter `amount_of_orders[i]`, read as 0 out of range. -/
def amtAt (g : GraphState) (i : ℕ) : ℕ :=
  g.amount_of_orders.getD i 0

/-- State of a freshly constructed world (graph.py lines 166-176): no orders
yet and all pending counters zero. -/
def FreshWorld (g : GraphState) : Prop :=
  g.orders = [] ∧ ∀ x ∈ g.amount_of_orders, x = 0

/-- Strengthened invariant: each node's pending counter dominates its pending
order count and never exceeds 3. -/
def PendingInv (g : GraphState) : Prop :=
  ∀ i, pendingCount g.orders i ≤ amtAt g i ∧ amtAt g i ≤ 3

/-- States reachable from a world by any sequence of `tick()` calls (any
stochastic draws, only completed ticks) and assignment actions (which go
through Graph.do_action). -/
inductive ReachableState (g0 : GraphState) : GraphState → Prop
  | init : ReachableState g0 g0
  | tick (g g' : GraphState) (σ : ℕ → ℚ) (ch : ℕ → ℕ) :
      ReachableState g0 g → g.time_step σ ch = some g' → ReachableState g0 g'
  | assign (g : GraphState) (a : Action) :
      ReachableState g0 g → ReachableState g0 (g.do_action a)

/-- Freshly constructed two-node world (for the C8 witness). -/
def c8Graph : GraphState :=
  { num_nodes := 2
    timestep := 0
    nodes := [1/100, 1/100]
    edges := fun _ _ => 1
    path_matrix := fun _ j => some j
    amount_of_orders := [0, 0]
    drivers_orders := [0]
    orders := []
    drivers := [(Driver.init 0 0 0).1]
    order_counter := 0 }

/- ===================== theorems ===================== -/

/-- Helper: the creation loop leaves the state unchanged when every draw is
at least the node's rate (and the counter lookups succeed). -/
theorem createOrdersGo_noop (σ : ℕ → ℚ) (ch : ℕ → ℕ) (l : List (ℕ × ℚ)) :
    ∀ (st : GraphState), (∀ p ∈ l, ¬ σ p.1 < p.2) →
      (∀ p ∈ l, (st.amount_of_orders.get? p.1).isSome = true) →
      createOrdersGo σ ch l st = some st := by
  induction l with
  | nil => intro st _ _; rfl
  | cons p rest ih =>
    intro st hge hamt
    obtain ⟨amt, hamt0⟩ := Option.isSome_iff_exists.mp (hamt p (by simp))
    rw [createOrdersGo, hamt0]
    simp only [hge p (by simp), false_and, if_false]
    exact ih st (fun q hq => hge q (by simp [hq])) (fun q hq => hamt q (by simp [hq]))

/-- Helper: on the scenario worlds (rates all 1/100, draws all 1, counters
`[1, 0, 0]`) a tick creates no orders. -/
theorem c2_createOrders (ch : ℕ → ℕ) (g : GraphState)
    (hnodes : g.nodes = [1/100, 1/100, 1/100]) (hamt : g.amount_of_orders = [1, 0, 0]) :
    createOrders c2Draw ch g = some g := by
  unfold createOrders
  have hn : g.nodes.enum = [(0, (1:ℚ)/100), (1, 1/100), (2, 1/100)] := by rw [hnodes]; rfl
  rw [createOrdersGo_noop]
  · intro p hp
    rw [hn] at hp
    simp only [List.mem_cons, List.not_mem_nil, or_false] at hp
    have : p.2 = 1/100 := by rcases hp with h | h | h <;> rw [h]
    rw [this]
    norm_num [c2Draw]
  · intro p hp
    rw [hn] at hp
    simp only [List.mem_cons, List.not_mem_nil, or_false] at hp
    rcases hp with h | h | h <;> subst h <;> rw [hamt] <;> rfl

/-- Helper: first scenario tick. -/
theorem c2_step1 : GraphState.time_step c2Draw c2Choice c2S0 = some c2S1 := by
  unfold GraphState.time_step
  rw [c2_createOrders _ _ rfl rfl]
  rfl

/-- Helper: second scenario tick. -/
theorem c2_step2 : GraphState.time_step c2Draw c2Choice c2S1 = some c2S2 := by
  unfold GraphState.time_step
  rw [c2_createOrders _ _ rfl rfl]
  rfl

/-- Helper: third scenario tick. -/
theorem c2_step3 : GraphState.time_step c2Draw c2Choice c2S2 = some c2S3 := by
  unfold GraphState.time_step
  rw [c2_createOrders _ _ rfl rfl]
  rfl

/-- Helper: the assign action (spec-modelled) on the scenario world. -/
theorem c2_assign : assign_spec c2Graph0 0 0 = some c2S0 := by
  rfl

/-- Helper: the three-tick trace of the end-to-end scenario. -/
theorem c2_trace :
    tickN c2Draw c2Choice 1 (assign_spec c2Graph0 0 0) = some c2S1 ∧
    tickN c2Draw c2Choice 2 (assign_spec c2Graph0 0 0) = some c2S2 ∧
    tickN c2Draw c2Choice 3 (assign_spec c2Graph0 0 0) = some c2S3 := by
  refine ⟨?_, ?_, ?_⟩ <;>
    simp only [tickN, c2_assign, Option.some_bind, c2_step1, c2_step2, c2_step3]

/-- Helper: closed form of the driver-creation loop.  Driver `i` of a world
built while the class counter reads `c` gets `id = c + i`, and the counter
leaves as `c + k`. -/
theorem initDrivers_eq (k n c : ℕ) :
    initDrivers k n c =
      ((List.range k).map (fun i => (Driver.init i (i % n) (c + i)).1), c + k) := by
  induction k with
  | zero => rfl
  | succ k ih =>
    unfold initDrivers at ih ⊢
    rw [List.range_succ, List.foldl_append, ih, List.map_append]
    rfl

/-- Helper: the pair adjacency is symmetric. -/
theorem edgeAdjB_symm {n : ℕ} (E : Finset (Fin n × Fin n)) (a b : Fin n) :
    edgeAdjB E a b = edgeAdjB E b a := by
  unfold edgeAdjB
  exact Bool.or_comm _ _

/-- Helper: the pair adjacency is monotone in the edge set. -/
theorem edgeAdjB_mono {n : ℕ} {E E' : Finset (Fin n × Fin n)} (h : E ⊆ E')
    (a b : Fin n) (hab : edgeAdjB E a b = true) : edgeAdjB E' a b = true := by
  unfold edgeAdjB at hab ⊢
  simp only [Bool.or_eq_true, decide_eq_true_eq] at hab ⊢
  exact hab.imp (fun hm => h hm) (fun hm => h hm)

/-- Helper: reachability is monotone in the edge set. -/
theorem ReachE_mono {n : ℕ} {E E' : Finset (Fin n × Fin n)} (h : E ⊆ E')
    {a b : Fin n} (hr : ReachE E a b) : ReachE E' a b :=
  Relation.ReflTransGen.mono (fun x y hxy => edgeAdjB_mono h x y hxy) hr

/-- Helper: reachability over an undirected pair set is symmetric. -/
theorem ReachE_symm {n : ℕ} {E : Finset (Fin n × Fin n)} {a b : Fin n}
    (hr : ReachE E a b) : ReachE E b a :=
  Relation.ReflTransGen.symmetric
    (fun x y hxy => by rw [edgeAdjB_symm]; exact hxy) hr

/-- Helper: every member of the component grown by the BFS is reachable from
the start node, provided the queue and the component so far are. -/
theorem bfs_comp_reach {n : ℕ} (adj : Fin n → Fin n → Bool) (start : Fin n) :
    ∀ (fuel : ℕ) (q : List (Fin n)) (vis comp : Finset (Fin n)),
      (∀ x ∈ q, Relation.ReflTransGen (fun a b => adj a b = true) start x) →
      (∀ x ∈ comp, Relation.ReflTransGen (fun a b => adj a b = true) start x) →
      ∀ x ∈ (bfs adj fuel q vis comp).2,
        Relation.ReflTransGen (fun a b => adj a b = true) start x := by
  intro fuel
  induction fuel with
  | zero => intro q vis comp _ hc x hx; exact hc x hx
  | succ fuel ih =>
    intro q vis comp hq hc x hx
    cases q with
    | nil => exact hc x hx
    | cons node queue =>
      simp only [bfs] at hx
      refine ih _ _ _ ?_ ?_ x hx
      · intro y hy
        rcases List.mem_append.mp hy with h1 | h2
        · exact hq y (List.mem_cons_of_mem _ h1)
        · have hm := (List.mem_filter.mp h2).2
          rw [Bool.and_eq_true] at hm
          exact (hq node (List.mem_cons_self _ _)).tail hm.1
      · intro y hy
        rcases Finset.mem_union.mp hy with h1 | h2
        · exact hc y h1
        · have hm := (List.mem_filter.mp (List.mem_toFinset.mp h2)).2
          rw [Bool.and_eq_true] at hm
          exact (hq node (List.mem_cons_self _ _)).tail hm.1

/-- Helper: the BFS only grows the component. -/
theorem bfs_comp_mono {n : ℕ} (adj : Fin n → Fin n → Bool) :
    ∀ (fuel : ℕ) (q : List (Fin n)) (vis comp : Finset (Fin n)),
      comp ⊆ (bfs adj fuel q vis comp).2 := by
  intro fuel
  induction fuel with
  | zero => intro q vis comp; exact subset_rfl
  | succ fuel ih =>
    intro q vis comp
    cases q with
    | nil => exact subset_rfl
    | cons node queue =>
      simp only [bfs]
      exact subset_trans Finset.subset_union_left (ih _ _ _)

/-- Helper: the BFS only grows the visited set. -/
theorem bfs_vis_mono {n : ℕ} (adj : Fin n → Fin n → Bool) :
    ∀ (fuel : ℕ) (q : List (Fin n)) (vis comp : Finset (Fin n)),
      vis ⊆ (bfs adj fuel q vis comp).1 := by
  intro fuel
  induction fuel with
  | zero => intro q vis comp; exact subset_rfl
  | succ fuel ih =>
    intro q vis comp
    cases q with
    | nil => exact subset_rfl
    | cons node queue =>
      simp only [bfs]
      exact subset_trans Finset.subset_union_left (ih _ _ _)

/-- Helper: the visited set tracks the global visited set plus the growing
component (they are extended together at graph.py lines 104-107). -/
theorem bfs_vis_comp {n : ℕ} (adj : Fin n → Fin n → Bool) (G : Finset (Fin n)) :
    ∀ (fuel : ℕ) (q : List (Fin n)) (vis comp : Finset (Fin n)),
      vis = G ∪ comp →
      (bfs adj fuel q vis comp).1 = G ∪ (bfs adj fuel q vis comp).2 := by
  intro fuel
  induction fuel with
  | zero => intro q vis comp h; exact h
  | succ fuel ih =>
    intro q vis comp h
    cases q with
    | nil => exact h
    | cons node queue =>
      simp only [bfs]
      exact ih _ _ _ (by rw [h, Finset.union_assoc])

/-- Helper: one component-enumeration step preserves the invariant, keeps the
visited set growing, and marks the processed start node visited. -/
theorem componentsStep_inv {n : ℕ} (adj : Fin n → Fin n → Bool)
    (acc : Finset (Fin n) × List (Finset (Fin n))) (start : Fin n)
    (h : CompInv adj acc) :
    CompInv adj (componentsStep adj acc start) ∧
      acc.1 ⊆ (componentsStep adj acc start).1 ∧
      start ∈ (componentsStep adj acc start).1 := by
  unfold componentsStep
  by_cases hs : start ∈ acc.1
  · rw [if_pos hs]
    exact ⟨h, subset_rfl, hs⟩
  · rw [if_neg hs]
    have hvis := bfs_vis_comp adj acc.1 (2 * n + 2) [start] (insert start acc.1) {start}
      (by rw [Finset.insert_eq, Finset.union_comm])
    refine ⟨⟨?_, ?_⟩, ?_, ?_⟩
    · intro v hv
      rw [hvis] at hv
      rcases Finset.mem_union.mp hv with h1 | h2
      · obtain ⟨C, hC, hvC⟩ := h.1 v h1
        exact ⟨C, List.mem_append_left _ hC, hvC⟩
      · exact ⟨_, List.mem_append_right _ (List.mem_singleton_self _), h2⟩
    · intro C hC
      rcases List.mem_append.mp hC with h1 | h2
      · exact h.2 C h1
      · rw [List.mem_singleton] at h2
        subst h2
        refine ⟨⟨start, bfs_comp_mono adj _ _ _ _ (Finset.mem_singleton_self start)⟩,
          start, ?_⟩
        refine bfs_comp_reach adj start _ _ _ _ ?_ ?_
        · intro x hx
          rw [List.mem_singleton] at hx
          subst hx
          exact Relation.ReflTransGen.refl
        · intro x hx
          rw [Finset.mem_singleton] at hx
          subst hx
          exact Relation.ReflTransGen.refl
    · exact subset_trans (Finset.subset_insert _ _) (bfs_vis_mono adj _ _ _ _)
    · exact bfs_vis_mono adj _ _ _ _ (Finset.mem_insert_self _ _)

/-- Helper: invariant and coverage for the whole component fold. -/
theorem componentsFold {n : ℕ} (adj : Fin n → Fin n → Bool) :
    ∀ (l : List (Fin n)) (acc), CompInv adj acc →
      CompInv adj (l.foldl (componentsStep adj) acc) ∧
        ∀ x, (x ∈ acc.1 ∨ x ∈ l) → x ∈ (l.foldl (componentsStep adj) acc).1 := by
  intro l
  induction l with
  | nil =>
    intro acc h
    refine ⟨h, fun x hx => ?_⟩
    rcases hx with hx | hx
    · exact hx
    · exact absurd hx (List.not_mem_nil x)
  | cons s rest ih =>
    intro acc h
    obtain ⟨h1, h2, h3⟩ := componentsStep_inv adj acc s h
    obtain ⟨hI, hC⟩ := ih _ h1
    refine ⟨hI, fun x hx => ?_⟩
    rcases hx with hx | hx
    · exact hC x (Or.inl (h2 hx))
    · rcases List.mem_cons.mp hx with rfl | hx
      · exact hC x (Or.inl h3)
      · exact hC x (Or.inr hx)

/-- Helper: every node lies in some component, and every component is
nonempty and internally connected. -/
theorem components_props {n : ℕ} (adj : Fin n → Fin n → Bool) :
    (∀ v : Fin n, ∃ C ∈ components adj, v ∈ C) ∧
    (∀ C ∈ components adj, C.Nonempty ∧
      ∃ st, ∀ x ∈ C, Relation.ReflTransGen (fun a b => adj a b = true) st x) := by
  have h0 : CompInv adj ((∅ : Finset (Fin n)), ([] : List (Finset (Fin n)))) := by
    constructor
    · intro v hv
      exact absurd hv (Finset.not_mem_empty v)
    · intro C hC
      exact absurd hC (List.not_mem_nil C)
  obtain ⟨hI, hC⟩ := componentsFold adj (List.finRange n) _ h0
  refine ⟨fun v => ?_, hI.2⟩
  exact hI.1 v (hC v (Or.inr (List.mem_finRange v)))

/-- Helper: the first-minimizer fold stays within the candidate list. -/
theorem foldl_min_mem {n : ℕ} (f : Fin n × Fin n → ℚ) :
    ∀ (l : List (Fin n × Fin n)) (q : Fin n × Fin n),
      l.foldl (fun best q' => if f q' < f best then q' else best) q ∈ q :: l := by
  intro l
  induction l with
  | nil => intro q; exact List.mem_singleton_self q
  | cons b rest ih =>
    intro q
    rw [List.foldl_cons]
    rcases List.mem_cons.mp (ih (if f b < f q then b else q)) with h | h
    · rw [h]
      by_cases hb : f b < f q
      · rw [if_pos hb]
        exact List.mem_cons_of_mem _ (List.mem_cons_self _ _)
      · rw [if_neg hb]
        exact List.mem_cons_self _ _
    · exact List.mem_cons_of_mem _ (List.mem_cons_of_mem _ h)

/-- Helper: on nonempty components the chosen pair is a cross pair. -/
theorem pickCross_mem {n : ℕ} (ddist : Fin n × Fin n → ℚ) (A B : Finset (Fin n))
    (hA : A.Nonempty) (hB : B.Nonempty) :
    ∃ q, pickCross ddist A B = some q ∧ q.1 ∈ A ∧ q.2 ∈ B := by
  obtain ⟨a, ha⟩ := hA
  obtain ⟨b, hb⟩ := hB
  have hmem : (a, b) ∈ (A.sort (· ≤ ·)).product (B.sort (· ≤ ·)) :=
    List.pair_mem_product.mpr ⟨(Finset.mem_sort _).mpr ha, (Finset.mem_sort _).mpr hb⟩
  unfold pickCross
  cases hp : (A.sort (· ≤ ·)).product (B.sort (· ≤ ·)) with
  | nil =>
    rw [hp] at hmem
    exact absurd hmem (List.not_mem_nil _)
  | cons q qs =>
    refine ⟨_, rfl, ?_⟩
    have hm := foldl_min_mem ddist qs q
    rw [← hp] at hm
    have hps : ∀ r : Fin n × Fin n,
        r ∈ (A.sort (· ≤ ·)).product (B.sort (· ≤ ·)) → r.1 ∈ A ∧ r.2 ∈ B := by
      rintro ⟨x, y⟩ hr
      have := List.pair_mem_product.mp hr
      exact ⟨(Finset.mem_sort _).mp this.1, (Finset.mem_sort _).mp this.2⟩
    exact hps _ hm

/-- Helper: the merge loop with enough fuel connects everything, starting
from a component list that covers all nodes with internally connected
nonempty components. -/
theorem mergeLoop_connected {n : ℕ} (ddist : Fin n × Fin n → ℚ) :
    ∀ (fuel : ℕ) (comps : List (Finset (Fin n))) (E : Finset (Fin n × Fin n)),
      comps.length ≤ fuel + 1 →
      (∀ v, ∃ C ∈ comps, v ∈ C) →
      (∀ C ∈ comps, C.Nonempty) →
      (∀ C ∈ comps, ∀ x ∈ C, ∀ y ∈ C, ReachE E x y) →
      ∀ a b, ReachE (mergeLoop ddist fuel comps E) a b := by
  intro fuel
  induction fuel with
  | zero =>
    intro comps E hlen hcov hne hpair a b
    cases comps with
    | nil =>
      obtain ⟨C, hC, -⟩ := hcov a
      exact absurd hC (List.not_mem_nil C)
    | cons C rest =>
      cases rest with
      | cons D rest' => simp at hlen
      | nil =>
        obtain ⟨CA, hCA, hav⟩ := hcov a
        obtain ⟨CB, hCB, hbv⟩ := hcov b
        rw [List.mem_singleton] at hCA hCB
        rw [hCA] at hav
        rw [hCB] at hbv
        exact hpair C (List.mem_singleton_self C) a hav b hbv
  | succ fuel ih =>
    intro comps E hlen hcov hne hpair a b
    cases comps with
    | nil =>
      obtain ⟨C, hC, -⟩ := hcov a
      exact absurd hC (List.not_mem_nil C)
    | cons A comps' =>
      cases comps' with
      | nil =>
        obtain ⟨CA, hCA, hav⟩ := hcov a
        obtain ⟨CB, hCB, hbv⟩ := hcov b
        rw [List.mem_singleton] at hCA hCB
        rw [hCA] at hav
        rw [hCB] at hbv
        exact hpair A (List.mem_singleton_self A) a hav b hbv
      | cons B rest =>
        obtain ⟨q, hq, hqA, hqB⟩ := pickCross_mem ddist A B
          (hne A (List.mem_cons_self _ _))
          (hne B (List.mem_cons_of_mem _ (List.mem_cons_self _ _)))
        simp only [mergeLoop, hq]
        have hEsub : E ⊆ insert (min q.1 q.2, max q.1 q.2) E := Finset.subset_insert _ _
        have hadj : edgeAdjB (insert (min q.1 q.2, max q.1 q.2) E) q.1 q.2 = true := by
          unfold edgeAdjB
          simp only [Bool.or_eq_true, decide_eq_true_eq, Finset.mem_insert]
          rcases le_total q.1 q.2 with hle | hle
          · exact Or.inl (Or.inl (by rw [min_eq_left hle, max_eq_right hle]))
          · exact Or.inr (Or.inl (by rw [min_eq_right hle, max_eq_left hle]))
        have hstep : ReachE (insert (min q.1 q.2, max q.1 q.2) E) q.1 q.2 :=
          Relation.ReflTransGen.single hadj
        refine ih (rest ++ [A ∪ B]) _ ?_ ?_ ?_ ?_ a b
        · have := hlen
          simp only [List.length_cons] at this
          simp only [List.length_append, List.length_cons, List.length_nil]
          omega
        · intro v
          obtain ⟨C, hC, hvC⟩ := hcov v
          rcases List.mem_cons.mp hC with hCe | hC
          · rw [hCe] at hvC
            exact ⟨A ∪ B, List.mem_append_right _ (List.mem_singleton_self _),
              Finset.mem_union_left _ hvC⟩
          rcases List.mem_cons.mp hC with hCe | hC
          · rw [hCe] at hvC
            exact ⟨A ∪ B, List.mem_append_right _ (List.mem_singleton_self _),
              Finset.mem_union_right _ hvC⟩
          · exact ⟨C, List.mem_append_left _ hC, hvC⟩
        · intro C hC
          rcases List.mem_append.mp hC with hC | hC
          · exact hne C (List.mem_cons_of_mem _ (List.mem_cons_of_mem _ hC))
          · rw [List.mem_singleton] at hC
            subst hC
            obtain ⟨x, hx⟩ := hne A (List.mem_cons_self _ _)
            exact ⟨x, Finset.mem_union_left _ hx⟩
        · intro C hC x hx y hy
          rcases List.mem_append.mp hC with hC | hC
          · exact ReachE_mono hEsub
              (hpair C (List.mem_cons_of_mem _ (List.mem_cons_of_mem _ hC)) x hx y hy)
          · rw [List.mem_singleton] at hC
            subst hC
            have hInA : ∀ z ∈ A, ReachE (insert (min q.1 q.2, max q.1 q.2) E) z q.1 :=
              fun z hz => ReachE_mono hEsub
                (hpair A (List.mem_cons_self _ _) z hz q.1 hqA)
            have hInB : ∀ z ∈ B, ReachE (insert (min q.1 q.2, max q.1 q.2) E) q.2 z :=
              fun z hz => ReachE_mono hEsub
                (hpair B (List.mem_cons_of_mem _ (List.mem_cons_self _ _)) q.2 hqB z hz)
            rcases Finset.mem_union.mp hx with hxA | hxB <;>
              rcases Finset.mem_union.mp hy with hyA | hyB
            · exact ReachE_mono hEsub (hpair A (List.mem_cons_self _ _) x hxA y hyA)
            · exact ((hInA x hxA).trans hstep).trans (hInB y hyB)
            · exact ReachE_symm (((hInA y hyA).trans hstep).trans (hInB x hxB))
            · exact ReachE_mono hEsub
                (hpair B (List.mem_cons_of_mem _ (List.mem_cons_self _ _)) x hxB y hyB)

/-- Helper: ensure_connected produces a pair set under which every two nodes
are mutually reachable. -/
theorem ensure_connected_reach {n : ℕ} (ddist : Fin n × Fin n → ℚ)
    (E : Finset (Fin n × Fin n)) (a b : Fin n) :
    ReachE (ensure_connected ddist E) a b := by
  have hcov := (components_props (edgeAdjB E)).1
  have hsound := (components_props (edgeAdjB E)).2
  have hpair : ∀ C ∈ components (edgeAdjB E), ∀ x ∈ C, ∀ y ∈ C, ReachE E x y := by
    intro C hC x hx y hy
    obtain ⟨-, st, hst⟩ := hsound C hC
    exact (ReachE_symm (hst x hx)).trans (hst y hy)
  unfold ensure_connected
  by_cases hlen : (components (edgeAdjB E)).length ≤ 1
  · rw [if_pos hlen]
    cases hc : components (edgeAdjB E) with
    | nil =>
      obtain ⟨C, hC, -⟩ := hcov a
      rw [hc] at hC
      exact absurd hC (List.not_mem_nil C)
    | cons C rest =>
      rw [hc] at hlen
      cases rest with
      | cons D rest' => simp at hlen
      | nil =>
        obtain ⟨CA, hCA, hav⟩ := hcov a
        obtain ⟨CB, hCB, hbv⟩ := hcov b
        rw [hc, List.mem_singleton] at hCA hCB
        rw [hCA] at hav
        rw [hCB] at hbv
        exact hpair C (by rw [hc]; exact List.mem_singleton_self C) a hav b hbv
  · rw [if_neg hlen]
    exact mergeLoop_connected ddist _ _ _ (Nat.le_succ _) hcov
      (fun C hC => (hsound C hC).1) hpair a b

/-- Helper: every adjacent pair gets a positive materialized weight. -/
theorem materialize_pos {n : ℕ} (E : Finset (Fin n × Fin n))
    (wfun : Fin n → Fin n → ℕ) (a b : Fin n) (h : edgeAdjB E a b = true) :
    0 < materialize_edges E wfun a b := by
  unfold edgeAdjB at h
  unfold materialize_edges
  simp only [Bool.or_eq_true, decide_eq_true_eq] at h
  by_cases h1 : (a, b) ∈ E
  · rw [if_pos h1]
    exact lt_of_lt_of_le one_pos (le_max_left _ _)
  · rw [if_neg h1, if_pos (h.resolve_left h1)]
    exact lt_of_lt_of_le one_pos (le_max_left _ _)

/-- C4 (counterexample): nodeCount = 2, edgeCountTarget = 0 meets the claim's
hypotheses (nodeCount ≥ 1, edgeCountTarget ≥ 0), but create_graph takes the
no-edge early return (graph.py line 215), so the adjacency is all zero and
node 1 is not reachable from node 0. -/
theorem c4_two_nodes_zero_edges_disconnected :
    (∀ i j : Fin 2, create_graph 2 0 ∅ (fun _ => 0) (fun _ _ => 0) i j = 0) ∧
    ¬ ConnectedW (create_graph 2 0 ∅ (fun _ => 0) (fun _ _ => 0)) := by
  have hz : ∀ i j : Fin 2, create_graph 2 0 ∅ (fun _ => 0) (fun _ _ => 0) i j = 0 := by
    intro i j
    rfl
  refine ⟨hz, fun hcon => ?_⟩
  rcases Relation.ReflTransGen.cases_head (hcon 0 1) with heq | ⟨c, hc, -⟩
  · exact absurd heq (by decide)
  · rw [hz 0 c] at hc
    exact absurd hc (lt_irrefl 0)

/-- C4 (amended): for every construction input with nodeCount ≥ 1 and
edgeCountTarget ≥ 1 (and any randomness: any candidate edge set, distances
and weights), the produced adjacency is a single connected component; with
nodeCount = 1 trivially, otherwise through the ensure_connected repair.  (For
edgeCountTarget = 0 and nodeCount ≥ 2 the repair is skipped and the graph is
disconnected, see the counterexample.) -/
theorem create_graph_connected (num_nodes num_edges : ℕ)
    (candidates : Finset (Fin num_nodes × Fin num_nodes))
    (ddist : Fin num_nodes × Fin num_nodes → ℚ)
    (wfun : Fin num_nodes → Fin num_nodes → ℕ)
    (hn : 1 ≤ num_nodes) (he : 1 ≤ num_edges) :
    ConnectedW (create_graph num_nodes num_edges candidates ddist wfun) := by
  unfold ConnectedW create_graph
  by_cases h2 : num_nodes < 2 ∨ num_edges ≤ 0
  · rw [if_pos h2]
    intro a b
    have hone : num_nodes = 1 := by omega
    have hab : a = b := by
      apply Fin.ext
      have ha := a.isLt
      have hb := b.isLt
      omega
    rw [hab]
    exact Relation.ReflTransGen.refl
  · rw [if_neg h2]
    intro a b
    exact Relation.ReflTransGen.mono
      (fun x y hxy => materialize_pos _ wfun x y hxy)
      (ensure_connected_reach ddist candidates a b)

/-- C4 (witness for the amended theorem): two nodes, edge target 1, empty
candidate set — the repair adds the missing edge. -/
theorem c4_witness : ConnectedW (create_graph 2 1 ∅ (fun _ => 0) (fun _ _ => 0)) :=
  create_graph_connected 2 1 ∅ (fun _ => 0) (fun _ _ => 0) (by decide) (by decide)

/-- Helper: pendingCount over a cons. -/
theorem pendingCount_cons (a : Order) (l : List Order) (i : ℕ) :
    pendingCount (a :: l) i =
      (if (a.pickup_node == i && !a.is_picked_up) = true then 1 else 0) + pendingCount l i := by
  unfold pendingCount
  rw [List.filter_cons]
  by_cases h : (a.pickup_node == i && !a.is_picked_up) = true <;> simp [h] <;> omega

/-- Helper: pendingCount over an appended creation. -/
theorem pendingCount_append (os : List Order) (o : Order) (i : ℕ) :
    pendingCount (os ++ [o]) i =
      pendingCount os i + (if (o.pickup_node == i && !o.is_picked_up) = true then 1 else 0) := by
  unfold pendingCount
  rw [List.filter_append, List.length_append, List.filter_cons]
  by_cases h : (o.pickup_node == i && !o.is_picked_up) = true <;> simp [h]

/-- Helper: updating one order in place can only keep or lower the pending
count, provided the update keeps the pickup node and never un-picks. -/
theorem pendingCount_set_le (o' : Order) :
    ∀ (os : List Order) (oi : ℕ) (o : Order), os.get? oi = some o →
      o'.pickup_node = o.pickup_node → (o.is_picked_up = true → o'.is_picked_up = true) →
      ∀ i, pendingCount (os.set oi o') i ≤ pendingCount os i := by
  intro os
  induction os with
  | nil => intro oi o hget; exact absurd hget (by simp)
  | cons a rest ih =>
    intro oi o hget hpn hpu i
    cases oi with
    | zero =>
      rw [List.get?] at hget
      cases Option.some.inj hget
      rw [List.set_cons_zero, pendingCount_cons, pendingCount_cons]
      have hle : (if (o'.pickup_node == i && !o'.is_picked_up) = true then 1 else 0) ≤
          (if (a.pickup_node == i && !a.is_picked_up) = true then (1:ℕ) else 0) := by
        by_cases hp : (o'.pickup_node == i && !o'.is_picked_up) = true
        · rw [if_pos hp]
          have := Bool.and_elim_left hp
          have hnp := Bool.and_elim_right hp
          rw [if_pos]
          rw [Bool.and_eq_true]
          refine ⟨by rw [← hpn]; exact this, ?_⟩
          rw [Bool.not_eq_true'] at hnp ⊢
          by_contra hh
          rw [Bool.not_eq_false] at hh
          rw [hpu hh] at hnp
          exact Bool.noConfusion hnp
        · rw [if_neg hp]
          exact Nat.zero_le _
      omega
    | succ m =>
      rw [List.get?] at hget
      rw [List.set_cons_succ, pendingCount_cons, pendingCount_cons]
      have := ih m o hget hpn hpu i
      omega

/-- Helper: a driver lifecycle step never increases any node's pending count
(it only ever flags an order as picked up or delivered). -/
theorem time_step_pendingCount_le (gpath : ℕ → ℕ → Option ℕ) (gedges : ℕ → ℕ → ℕ)
    (d : Driver) (os : List Order) (ds : List ℤ) (d' : Driver) (os' : List Order)
    (ds' : List ℤ) (h : d.time_step gpath gedges os ds = some (d', os', ds')) :
    ∀ i, pendingCount os' i ≤ pendingCount os i := by
  unfold Driver.time_step at h
  by_cases h1 : 0 < d.delay
  · rw [if_pos h1] at h
    cases Option.some.inj h
    exact fun i => le_rfl
  rw [if_neg h1] at h
  cases hord : d.order with
  | none =>
    simp only [hord] at h
    cases Option.some.inj h
    exact fun i => le_rfl
  | some oi =>
    simp only [hord] at h
    cases hget : os.get? oi with
    | none =>
      simp only [hget] at h
      exact Option.noConfusion h
    | some o =>
      simp only [hget] at h
      by_cases h2 : (o.is_picked_up && !o.is_delivered) = true
      · simp only [h2, if_true] at h
        cases hnext : gpath d.current_node o.dropoff_node with
        | none =>
          simp only [hnext] at h
          cases Option.some.inj h
          exact fun i => le_rfl
        | some nxt =>
          simp only [hnext] at h
          by_cases h3 : nxt = o.dropoff_node
          · simp only [h3, if_true] at h
            unfold listSet at h
            by_cases h4 : oi < os.length
            · rw [if_pos h4] at h
              cases hcnt : ds.get? d.id with
              | none =>
                simp only [hcnt] at h
                exact Option.noConfusion h
              | some cnt =>
                simp only [hcnt] at h
                cases Option.some.inj h
                exact pendingCount_set_le _ os oi o hget rfl (fun hh => hh)
            · rw [if_neg h4] at h
              exact Option.noConfusion h
          · simp only [if_neg h3] at h
            cases Option.some.inj h
            exact fun i => le_rfl
      · rw [Bool.not_eq_true] at h2
        simp only [h2, Bool.false_eq_true, if_false] at h
        by_cases h5 : (!o.is_picked_up) = true
        · simp only [h5, if_true] at h
          cases hnext : gpath d.current_node o.pickup_node with
          | none =>
            simp only [hnext] at h
            cases Option.some.inj h
            exact fun i => le_rfl
          | some nxt =>
            simp only [hnext] at h
            by_cases h3 : nxt = o.pickup_node
            · simp only [h3, if_true] at h
              unfold listSet at h
              by_cases h4 : oi < os.length
              · rw [if_pos h4] at h
                cases Option.some.inj h
                exact pendingCount_set_le _ os oi o hget rfl (fun _ => rfl)
              · rw [if_neg h4] at h
                exact Option.noConfusion h
            · simp only [if_neg h3] at h
              cases Option.some.inj h
              exact fun i => le_rfl
        · rw [Bool.not_eq_true] at h5
          simp only [h5, Bool.false_eq_true, if_false] at h
          cases Option.some.inj h
          exact fun i => le_rfl

/-- Helper: the whole driver loop never increases any pending count. -/
theorem runDrivers_pendingCount_le (gpath : ℕ → ℕ → Option ℕ) (gedges : ℕ → ℕ → ℕ) :
    ∀ (dl : List Driver) (os : List Order) (dor : List ℤ) res,
      runDrivers gpath gedges dl os dor = some res →
      ∀ i, pendingCount res.2.1 i ≤ pendingCount os i := by
  intro dl
  induction dl with
  | nil =>
    intro os dor res h i
    cases Option.some.inj h
    exact le_rfl
  | cons d rest ih =>
    intro os dor res h i
    unfold runDrivers at h
    cases hstep : d.time_step gpath gedges os dor with
    | none => rw [hstep] at h; exact Option.noConfusion h
    | some triple =>
      rw [hstep] at h
      obtain ⟨d', os', dor'⟩ := triple
      cases hrest : runDrivers gpath gedges rest os' dor' with
      | none =>
        simp only [hrest] at h
        exact Option.noConfusion h
      | some res' =>
        simp only [hrest] at h
        cases Option.some.inj h
        calc pendingCount (res'.2.1) i ≤ pendingCount os' i := ih os' dor' res' hrest i
          _ ≤ pendingCount os i := time_step_pendingCount_le _ _ _ _ _ _ _ _ hstep i

/-- Helper: the creation loop preserves the pending invariant (the guard at
graph.py line 361 only creates when the counter is below 3, and it increments
the counter together with the pending count). -/
theorem createOrdersGo_inv (σ : ℕ → ℚ) (ch : ℕ → ℕ) :
    ∀ (l : List (ℕ × ℚ)) (st st' : GraphState),
      createOrdersGo σ ch l st = some st' → PendingInv st → PendingInv st' := by
  intro l
  induction l with
  | nil =>
    intro st st' h hi
    cases Option.some.inj h
    exact hi
  | cons p rest ih =>
    intro st st' h hi
    unfold createOrdersGo at h
    cases hget : st.amount_of_orders.get? p.1 with
    | none => rw [hget] at h; exact Option.noConfusion h
    | some amt =>
      simp only [hget] at h
      by_cases hc : σ p.1 < p.2 ∧ amt < 3
      · rw [if_pos hc] at h
        cases hdrop : ((List.range st.num_nodes).filter (fun j => j ≠ p.1)).get?
            (ch p.1 % ((List.range st.num_nodes).filter (fun j => j ≠ p.1)).length) with
        | none =>
          simp only [hdrop] at h
          exact Option.noConfusion h
        | some dropoff =>
          simp only [hdrop] at h
          refine ih _ _ h ?_
          have hlt : p.1 < st.amount_of_orders.length := by
            by_contra hlt
            rw [List.get?_eq_none.mpr (Nat.le_of_not_lt hlt)] at hget
            exact Option.noConfusion hget
          intro i
          by_cases hip : p.1 = i
          · subst hip
            have ha : amtAt { st with
                orders := st.orders ++ [(Order.init p.1 dropoff st.timestep st.order_counter).1]
                order_counter := (Order.init p.1 dropoff st.timestep st.order_counter).2
                amount_of_orders := st.amount_of_orders.set p.1 (amt + 1) } p.1 = amt + 1 := by
              show ((st.amount_of_orders.set p.1 (amt + 1)).get? p.1).getD 0 = amt + 1
              rw [List.get?_set_eq_of_lt _ hlt]
              rfl
            have hcnt : pendingCount (st.orders ++
                [(Order.init p.1 dropoff st.timestep st.order_counter).1]) p.1 =
                pendingCount st.orders p.1 + 1 := by
              rw [pendingCount_append]
              simp [Order.init]
            have hold := hi p.1
            have holdamt : amtAt st p.1 = amt := by
              show (st.amount_of_orders.get? p.1).getD 0 = amt
              rw [hget]
              rfl
            rw [holdamt] at hold
            constructor
            · show pendingCount _ p.1 ≤ _
              rw [ha, hcnt]
              omega
            · rw [ha]
              omega
          · have ha : amtAt { st with
                orders := st.orders ++ [(Order.init p.1 dropoff st.timestep st.order_counter).1]
                order_counter := (Order.init p.1 dropoff st.timestep st.order_counter).2
                amount_of_orders := st.amount_of_orders.set p.1 (amt + 1) } i = amtAt st i := by
              show ((st.amount_of_orders.set p.1 (amt + 1)).get? i).getD 0 = _
              rw [List.get?_set_ne _ _ hip]
              rfl
            have hcnt : pendingCount (st.orders ++
                [(Order.init p.1 dropoff st.timestep st.order_counter).1]) i =
                pendingCount st.orders i := by
              rw [pendingCount_append]
              have : (((Order.init p.1 dropoff st.timestep st.order_counter).1).pickup_node
                  == i) = false := by
                simp [Order.init, hip]
              rw [this]
              simp
            have hold := hi i
            rw [ha]
            constructor
            · show pendingCount _ i ≤ _
              rw [hcnt]
              exact hold.1
            · exact hold.2
      · rw [if_neg hc] at h
        exact ih _ _ h hi

/-- Helper: one completed tick preserves the pending invariant. -/
theorem time_step_inv (σ : ℕ → ℚ) (ch : ℕ → ℕ) (g g' : GraphState)
    (h : g.time_step σ ch = some g') (hi : PendingInv g) : PendingInv g' := by
  unfold GraphState.time_step at h
  cases hc : createOrders σ ch { g with timestep := g.timestep + 1 } with
  | none => rw [hc] at h; exact Option.noConfusion h
  | some g1 =>
    rw [hc] at h
    have hi1 : PendingInv g1 :=
      createOrdersGo_inv σ ch _ _ _ hc hi
    cases hr : runDrivers g1.path_matrix g1.edges g1.drivers g1.orders g1.drivers_orders with
    | none =>
      simp only [hr] at h
      exact Option.noConfusion h
    | some res =>
      simp only [hr] at h
      obtain ⟨ds', os', dor'⟩ := res
      cases Option.some.inj h
      intro i
      refine ⟨?_, (hi1 i).2⟩
      calc pendingCount os' i ≤ pendingCount g1.orders i :=
            runDrivers_pendingCount_le _ _ _ _ _ _ hr i
        _ ≤ amtAt g1 i := (hi1 i).1

/-- Helper: a fresh world satisfies the invariant. -/
theorem fresh_inv (g : GraphState) (h : FreshWorld g) : PendingInv g := by
  intro i
  constructor
  · rw [h.1]
    exact Nat.zero_le _
  · show (g.amount_of_orders.get? i).getD 0 ≤ 3
    cases hg : g.amount_of_orders.get? i with
    | none => exact Nat.zero_le 3
    | some x =>
      have hx : x ∈ g.amount_of_orders := List.get?_mem hg
      rw [h.2 x hx]
      exact Nat.zero_le 3

/-- C8: in every state reachable from a freshly constructed world by any
sequence of completed ticks and assignment actions, no node has more than 3
simultaneously Pending (created but not yet picked up) orders.  The proof
strengthens to: the counter `amount_of_orders[i]` dominates the pending count
at `i` and never exceeds 3 (in fact, since pickup never decrements the
counter — see C7 — the counter bounds the number of orders ever created at
the node). -/
theorem c8_pending_bounded (g0 g : GraphState) (h0 : FreshWorld g0)
    (hr : ReachableState g0 g) : ∀ i, pendingCount g.orders i ≤ 3 := by
  have hinv : PendingInv g := by
    induction hr with
    | init => exact fresh_inv g0 h0
    | tick ga gb σ ch _ ht ih => exact time_step_inv σ ch ga gb ht ih
    | assign ga a _ ih => exact ih
  intro i
  exact le_trans (hinv i).1 (hinv i).2

/-- C8 (witness): the fresh two-node world. -/
theorem c8_witness : pendingCount c8Graph.orders 0 ≤ 3 :=
  c8_pending_bounded c8Graph c8Graph ⟨rfl, by decide⟩ ReachableState.init 0

/-- C2 (counterexample): in the 3-node line-graph scenario (order pickup 0 /
dropoff 2 created at tick 0, assigned — spec-modelled, since Graph.do_action
is an empty stub — at tick 0), after the second tick the driver is at node 1
and the order is not Delivered, refuting the claimed "after tick 2: driver at
node 2, order Delivered, total delivery time 2". -/
theorem c2_two_ticks_do_not_deliver :
    ((tickN c2Draw c2Choice 2 (assign_spec c2Graph0 0 0)).map
        (fun g => (g.drivers.map Driver.current_node, g.orders.map Order.is_delivered))
      = some ([1], [false])) ∧
    (∀ g, tickN c2Draw c2Choice 2 (assign_spec c2Graph0 0 0) = some g →
      ¬ (g.drivers.map Driver.current_node = [2] ∧ g.orders.map Order.is_delivered = [true])) := by
  refine ⟨by rw [c2_trace.2.1]; rfl, fun g hg => ?_⟩
  rw [c2_trace.2.1] at hg
  cases Option.some.inj hg
  rintro ⟨h1, h2⟩
  exact absurd h1 (by decide)

/-- C2 (amended): the driver spends the first tick on the zero-weight
self-loop hop at its own node (picking the order up there), so the scenario
takes three ticks, not two: after tick 1 the driver is still at node 0 with
the order PickedUp; after tick 2 it is at node 1, order still PickedUp; after
tick 3 it is at node 2 and the order is Delivered, so the total delivery time
(tick of delivery minus creation tick) is 3 - 0 = 3. -/
theorem c2_scenario_takes_three_ticks :
    snapshot (tickN c2Draw c2Choice 1 (assign_spec c2Graph0 0 0)) =
      some (1, [0], [some 0], [(true, false, 0)], [1, 0, 0]) ∧
    snapshot (tickN c2Draw c2Choice 2 (assign_spec c2Graph0 0 0)) =
      some (2, [1], [some 0], [(true, false, 0)], [1, 0, 0]) ∧
    snapshot (tickN c2Draw c2Choice 3 (assign_spec c2Graph0 0 0)) =
      some (3, [2], [some 0], [(true, true, 0)], [1, 0, 0]) ∧
    (∀ g, tickN c2Draw c2Choice 3 (assign_spec c2Graph0 0 0) = some g →
      g.orders.map (fun o => g.timestep - o.time_created) = [3]) := by
  refine ⟨by rw [c2_trace.1]; rfl, by rw [c2_trace.2.1]; rfl, by rw [c2_trace.2.2]; rfl,
    fun g hg => ?_⟩
  rw [c2_trace.2.2] at hg
  cases Option.some.inj hg
  rfl

/-- C6 (counterexample): in the scenario run, the third tick delivers the
order (graph.py line 573 sets `is_delivered`), but the order is NOT detached
from the driver: `driver.order` still references order 0 afterwards, so the
driver does not become Idle-with-no-order as the claim states. -/
theorem c6_delivered_order_not_detached :
    ((tickN c2Draw c2Choice 3 (assign_spec c2Graph0 0 0)).map
        (fun g => (g.orders.map Order.is_delivered, g.drivers.map Driver.order))
      = some ([true], [some 0])) ∧
    (∀ g, tickN c2Draw c2Choice 3 (assign_spec c2Graph0 0 0) = some g →
      ¬ g.drivers.map Driver.order = [none]) := by
  refine ⟨by rw [c2_trace.2.2]; rfl, fun g hg => ?_⟩
  rw [c2_trace.2.2] at hg
  cases Option.some.inj hg
  decide

/-- C6 (amended): for a driver with no remaining delay whose active order is
PickedUp, when the next hop equals the order's dropoff node the lifecycle
step sets the order's status to Delivered and decrements
`drivers_orders[driver.id]` — but the order reference is retained:
`driver.order` still holds the same order afterwards (the driver is never
detached from a delivered order). -/
theorem c6_delivery_sets_flag_keeps_reference
    (gpath : ℕ → ℕ → Option ℕ) (gedges : ℕ → ℕ → ℕ) (d : Driver)
    (orders : List Order) (dorders : List ℤ) (oi : ℕ) (o : Order) (nxt : ℕ) (cnt : ℤ)
    (hdelay : d.delay ≤ 0) (hord : d.order = some oi) (hget : orders.get? oi = some o)
    (hpicked : o.is_picked_up = true) (hnotdel : o.is_delivered = false)
    (hnext : gpath d.current_node o.dropoff_node = some nxt) (harrive : nxt = o.dropoff_node)
    (hcnt : dorders.get? d.id = some cnt) :
    d.time_step gpath gedges orders dorders =
      some ({ d with delay := (gedges d.current_node nxt : ℤ) - 1, current_node := nxt },
            orders.set oi { o with is_delivered := true },
            dorders.set d.id (cnt - 1)) ∧
    ({ d with delay := (gedges d.current_node nxt : ℤ) - 1,
              current_node := nxt } : Driver).order = some oi ∧
    (orders.set oi { o with is_delivered := true }).get? oi =
      some { o with is_delivered := true } := by
  have hoi : oi < orders.length := by
    by_contra hlt
    rw [List.get?_eq_none.mpr (Nat.le_of_not_lt hlt)] at hget
    exact Option.noConfusion hget
  have hdid : d.id < dorders.length := by
    by_contra hlt
    rw [List.get?_eq_none.mpr (Nat.le_of_not_lt hlt)] at hcnt
    exact Option.noConfusion hcnt
  refine ⟨?_, by rw [hord], ?_⟩
  · unfold Driver.time_step
    rw [if_neg (by omega)]
    simp only [hord, hget, hpicked, hnotdel, Bool.not_false, Bool.and_self, if_true, hnext,
      harrive, listSet, if_pos hoi, hcnt, eq_self_iff_true]
  · exact List.get?_set_eq_of_lt _ hoi

/-- C6 (witness for the amended theorem): concrete delivery step. -/
theorem c6_delivery_witness :
    Driver.time_step (fun _ _ => some 1) (fun _ _ => 1)
      { driver_id := 0, current_node := 0, delay := 0, order := some 0, id := 0 }
      [{ order_id := 0, pickup_node := 0, dropoff_node := 1, time_created := 0,
         is_picked_up := true, is_delivered := false }] [0] =
      some ({ driver_id := 0, current_node := 1, delay := 0, order := some 0, id := 0 },
        [{ order_id := 0, pickup_node := 0, dropoff_node := 1, time_created := 0,
           is_picked_up := true, is_delivered := true }], [-1]) := by
  have h := c6_delivery_sets_flag_keeps_reference (fun _ _ => some 1) (fun _ _ => 1)
    { driver_id := 0, current_node := 0, delay := 0, order := some 0, id := 0 }
    [{ order_id := 0, pickup_node := 0, dropoff_node := 1, time_created := 0,
       is_picked_up := true, is_delivered := false }] [0] 0
    { order_id := 0, pickup_node := 0, dropoff_node := 1, time_created := 0,
      is_picked_up := true, is_delivered := false } 1 0
    (by decide) rfl rfl rfl rfl rfl rfl rfl
  exact h.1

/-- C7: the claim says that on pickup the origin node's pending counter is
decremented.  The code sets `is_picked_up` (graph.py line 583) but never
decrements `amount_of_orders` anywhere: after the scenario's first tick the
order is PickedUp while the counters are still `[1, 0, 0]` (not `[0, 0, 0]`).
Since the counter is also what gates creation at 3 (graph.py line 361), each
node can only ever create 3 orders over the entire simulation — the spec's
"simultaneously pending" reading is clearly the intent and the missing
decrement a slip. -/
theorem c7_pickup_leaves_counter_unchanged :
    (tickN c2Draw c2Choice 1 (assign_spec c2Graph0 0 0)).map
        (fun g => (g.orders.map Order.is_picked_up, g.amount_of_orders))
      = some ([true], [1, 0, 0]) := by
  rw [c2_trace.1]
  rfl

/-- C10: in a world with exactly one node, whenever the stochastic order
trigger fires (the uniform draw falls below the node's rate while its pending
counter is below 3), the dropoff-selection list `[j for j in range(1) if
j != 0]` is empty, `random.choice` raises, and the tick aborts (`none`)
instead of completing. -/
theorem c10_single_node_tick_aborts (g : GraphState) (σ : ℕ → ℚ) (ch : ℕ → ℕ)
    (rate : ℚ) (amt : ℕ) (hn : g.num_nodes = 1) (hnodes : g.nodes = [rate])
    (hamt : g.amount_of_orders = [amt]) (h3 : amt < 3) (hdraw : σ 0 < rate) :
    g.time_step σ ch = none := by
  unfold GraphState.time_step createOrders
  have hen : ({ g with timestep := g.timestep + 1 } : GraphState).nodes.enum = [(0, rate)] := by
    show g.nodes.enum = _
    rw [hnodes]
    rfl
  have hamt' : ({ g with timestep := g.timestep + 1 } : GraphState).amount_of_orders.get? 0 =
      some amt := by
    show g.amount_of_orders.get? 0 = _
    rw [hamt]
    rfl
  have hcands : (List.range ({ g with timestep := g.timestep + 1 } : GraphState).num_nodes).filter
      (fun j => j ≠ (0:ℕ)) = [] := by
    show (List.range g.num_nodes).filter _ = _
    rw [hn]
    rfl
  rw [hen, createOrdersGo]
  simp only [hamt', hcands, if_pos (And.intro hdraw h3), List.get?, List.length_nil]

/-- C10 (witness): the single-node world with rate 1/10, draw 0. -/
theorem c10_witness : c10Graph.time_step (fun _ => 0) (fun _ => 0) = none := by
  exact c10_single_node_tick_aborts c10Graph (fun _ => 0) (fun _ => 0) (1/10) 0
    rfl rfl rfl (by decide) (by norm_num)

/-- C1: the claim reads: for every existing order with status not Delivered
and every existing driver with no active order, the assignment operation
(`assign` through AppState.apply_action and Graph.do_action) attaches the
order to the driver.  The code cannot do this: Graph.do_action's body is
empty (only a docstring), so apply_action is the identity on the graph state;
in the concrete two-node world with a pending order and a free driver the
driver's order is still `none` after the assign action, even though the
callers in routes.py lines 495-500 check for exactly this and report the
assignment as failed. -/
theorem do_action_empty_assignment_never_mutates :
    (∀ (g : GraphState) (a : Action), g.do_action a = g) ∧
    (∀ (s : AppState) (a : Action), (s.apply_action a).graph = s.graph) ∧
    ((AppState.apply_action { graph := some c1Graph, train := true }
        { type := "assign", order_id := 0, driver_id := 0 }).graph.map
      (fun g => g.drivers.map Driver.order) = some [none]) := by
  refine ⟨fun g a => rfl, fun s a => ?_, rfl⟩
  cases h : s.graph <;> simp [AppState.apply_action, GraphState.do_action, h]

/-- C5: the claim requires all randomness to be seed-derived with no implicit
global random state.  Graph.node_f draws every per-node order-generation rate
from the process-global `random` module: its value depends only on the global
stream and cursor (it has no seed input at all), so two constructions with
identical `(nodeCount, targetEdgeCount, seed, distributionType)` executed one
after the other in the same process read different positions of the global
stream and produce different `nodes` arrays — output is not byte-identical. -/
theorem node_rates_from_global_random_stream :
    (∀ (σ : ℕ → ℚ) (pos : ℕ), node_f σ pos = (1/500 + σ pos * (49/500), pos + 1)) ∧
    (mkNodes c5Stream 2 0).1 ≠ (mkNodes c5Stream 2 (mkNodes c5Stream 2 0).2).1 := by
  refine ⟨fun σ pos => rfl, ?_⟩
  intro h
  have h' : [(1:ℚ)/500 + c5Stream 0 * (49/500), 1/500 + c5Stream 1 * (49/500)] =
      [(1:ℚ)/500 + c5Stream 2 * (49/500), 1/500 + c5Stream 3 * (49/500)] := h
  injection h' with h0 htail
  norm_num [c5Stream] at h0

/-- C9: the claim says a second World constructed in the same process issues
driver ids and order ids starting again from 0, identical to the first.
False: `Driver.current_id` and `Order.current_id` are class attributes, so
the second world's driver `id`s are `[2, 3]` (not `[0, 1]`) and its first
order gets id 1 (not 0). -/
theorem second_world_ids_differ_from_first :
    ((initDrivers 2 6 (initDrivers 2 6 0).2).1.map Driver.id ≠
      (initDrivers 2 6 0).1.map Driver.id) ∧
    ((Order.init 0 1 0 (Order.init 0 1 0 0).2).1.order_id ≠
      (Order.init 0 1 0 0).1.order_id) := by
  decide

/-- C9 (amended): order and driver ids are allocated from class-scoped
counters shared across all instances in the process: a world whose
construction starts while the driver class counter reads `c` gets driver ids
`c, c+1, ...` and leaves the counter at `c + k` — a second world therefore
continues after the first (it restarts from 0 only when `c = 0`, i.e. for the
first instance in the process); likewise an order constructed at class
counter `c` gets id exactly `c`. -/
theorem ids_continue_across_instances (k n c : ℕ) :
    ((initDrivers k n c).1.map Driver.id = (List.range k).map (fun i => c + i)) ∧
    ((initDrivers k n c).2 = c + k) ∧
    (∀ p d t, (Order.init p d t c).1.order_id = c ∧ (Order.init p d t c).2 = c + 1) := by
  refine ⟨?_, ?_, fun p d t => ⟨rfl, rfl⟩⟩
  · rw [initDrivers_eq, List.map_map]
    rfl
  · rw [initDrivers_eq]

/-- Helper: the empty walk. -/
theorem HasPW_refl {n : ℕ} (w : Fin n → Fin n → ℕ) (a : Fin n) : HasPW w a a 0 :=
  ⟨[], trivial, rfl, rfl⟩

/-- Helper: walk end over an append. -/
theorem pathEnd_append {n : ℕ} :
    ∀ (p q : List (Fin n)) (a : Fin n), pathEnd a (p ++ q) = pathEnd (pathEnd a p) q := by
  intro p
  induction p with
  | nil => intro q a; rfl
  | cons b rest ih => intro q a; exact ih q b

/-- Helper: walk weight over an append. -/
theorem pathWeight_append {n : ℕ} (w : Fin n → Fin n → ℕ) :
    ∀ (p q : List (Fin n)) (a : Fin n),
      pathWeight w a (p ++ q) = pathWeight w a p + pathWeight w (pathEnd a p) q := by
  intro p
  induction p with
  | nil => intro q a; simp [pathWeight, pathEnd]
  | cons b rest ih =>
    intro q a
    show w a b + pathWeight w b (rest ++ q) = w a b + pathWeight w b rest + _
    rw [ih q b, Nat.add_assoc]
    rfl

/-- Helper: walk validity over an append. -/
theorem IsPath_append {n : ℕ} (w : Fin n → Fin n → ℕ) :
    ∀ (p q : List (Fin n)) (a : Fin n),
      IsPath w a p → IsPath w (pathEnd a p) q → IsPath w a (p ++ q) := by
  intro p
  induction p with
  | nil => intro q a _ hq; exact hq
  | cons b rest ih =>
    intro q a hp hq
    exact ⟨hp.1, ih q b hp.2 hq⟩

/-- Helper: append one hop at the end of a walk. -/
theorem HasPW_snoc {n : ℕ} {w : Fin n → Fin n → ℕ} {a b : Fin n} {c : ℕ}
    (h : HasPW w a b c) {v : Fin n} (hv : 0 < w b v) : HasPW w a v (c + w b v) := by
  obtain ⟨p, hp, hend, hwt⟩ := h
  refine ⟨p ++ [v], ?_, ?_, ?_⟩
  · exact IsPath_append w p [v] a hp (by rw [hend]; exact ⟨hv, trivial⟩)
  · rw [pathEnd_append, hend]
    rfl
  · rw [pathWeight_append, hend, hwt]
    show c + (w b v + 0) = c + w b v
    rw [Nat.add_zero]

/-- Helper: prepend one hop at the start of a walk. -/
theorem HasPW_cons {n : ℕ} {w : Fin n → Fin n → ℕ} {a b v : Fin n} {c : ℕ}
    (hab : 0 < w a b) (h : HasPW w b v c) : HasPW w a v (w a b + c) := by
  obtain ⟨p, hp, hend, hwt⟩ := h
  exact ⟨b :: p, ⟨hab, hp⟩, hend, by show w a b + pathWeight w b p = _; rw [hwt]⟩

/-- Helper: shortest distances are unique. -/
theorem IsDistW_unique {n : ℕ} {w : Fin n → Fin n → ℕ} {a b : Fin n} {c c' : ℕ}
    (h : IsDistW w a b c) (h' : IsDistW w a b c') : c = c' :=
  Nat.le_antisymm (h.2 c' h'.1) (h'.2 c h.1)

/-- Helper: the diagonal distance is 0. -/
theorem IsDistW_self {n : ℕ} (w : Fin n → Fin n → ℕ) (a : Fin n) : IsDistW w a a 0 :=
  ⟨HasPW_refl w a, fun c' _ => Nat.zero_le c'⟩

/-- Helper: a walk from inside the visited set to outside it crosses a
positive frontier edge, and the prefix up to that edge weighs no more than
the whole walk. -/
theorem path_split {n : ℕ} (w : Fin n → Fin n → ℕ) (s : Fin n) (V : Finset (Fin n)) :
    ∀ (p : List (Fin n)) (a : Fin n) (c₀ : ℕ), IsPath w a p → a ∈ V → HasPW w s a c₀ →
      pathEnd a p ∉ V →
      ∃ x y c₁, x ∈ V ∧ y ∉ V ∧ 0 < w x y ∧ HasPW w s x c₁ ∧
        c₁ + w x y ≤ c₀ + pathWeight w a p := by
  intro p
  induction p with
  | nil => intro a c₀ _ haV _ hend; exact absurd haV hend
  | cons b rest ih =>
    intro a c₀ hp haV hpw hend
    obtain ⟨hab, hrest⟩ := hp
    by_cases hbV : b ∈ V
    · obtain ⟨x, y, c₁, h1, h2, h3, h4, h5⟩ :=
        ih b (c₀ + w a b) hrest hbV (HasPW_snoc hpw hab) hend
      refine ⟨x, y, c₁, h1, h2, h3, h4, ?_⟩
      show c₁ + w x y ≤ c₀ + (w a b + pathWeight w b rest)
      omega
    · exact ⟨a, b, c₀, haV, hbV, hab, hpw,
        by show c₀ + w a b ≤ c₀ + (w a b + pathWeight w b rest); omega⟩

/-- Helper: any walk to an unvisited node either starts outside the visited
set or crosses a frontier edge within its weight budget. -/
theorem path_reach_frontier {n : ℕ} (w : Fin n → Fin n → ℕ) (s : Fin n)
    (V : Finset (Fin n)) (u : Fin n) (c : ℕ) (hu : u ∉ V) (hpw : HasPW w s u c) :
    s ∉ V ∨ ∃ x y c₁, x ∈ V ∧ y ∉ V ∧ 0 < w x y ∧ HasPW w s x c₁ ∧ c₁ + w x y ≤ c := by
  by_cases hs : s ∈ V
  · right
    obtain ⟨p, hp, hend, hwt⟩ := hpw
    obtain ⟨x, y, c₁, h1, h2, h3, h4, h5⟩ :=
      path_split w s V p s 0 hp hs (HasPW_refl w s) (by rw [hend]; exact hu)
    exact ⟨x, y, c₁, h1, h2, h3, h4, by omega⟩
  · exact Or.inl hs

/-- Helper: the selected queue entry is in the queue. -/
theorem pqMinAux_mem {n : ℕ} :
    ∀ (l : List (ℕ × Fin n)) (a : ℕ × Fin n), pqMinAux a l ∈ a :: l := by
  intro l
  induction l with
  | nil => intro a; exact List.mem_singleton_self a
  | cons b rest ih =>
    intro a
    show pqMinAux (if _ then a else b) rest ∈ _
    rcases List.mem_cons.mp (ih (if a.1 < b.1 ∨ (a.1 = b.1 ∧ a.2 ≤ b.2) then a else b)) with
      h | h
    · rw [h]
      by_cases hc : a.1 < b.1 ∨ (a.1 = b.1 ∧ a.2 ≤ b.2)
      · rw [if_pos hc]; exact List.mem_cons_self _ _
      · rw [if_neg hc]; exact List.mem_cons_of_mem _ (List.mem_cons_self _ _)
    · exact List.mem_cons_of_mem _ (List.mem_cons_of_mem _ h)

/-- Helper: the selected queue entry has the minimum key (Python's tuple
order refines the key order). -/
theorem pqMinAux_key_le {n : ℕ} :
    ∀ (l : List (ℕ × Fin n)) (a : ℕ × Fin n), ∀ b ∈ a :: l, (pqMinAux a l).1 ≤ b.1 := by
  intro l
  induction l with
  | nil =>
    intro a b hb
    rw [List.mem_singleton] at hb
    subst hb
    exact le_rfl
  | cons q rest ih =>
    intro a b hb
    have hstep : (if a.1 < q.1 ∨ (a.1 = q.1 ∧ a.2 ≤ q.2) then a else q).1 ≤ a.1 ∧
        (if a.1 < q.1 ∨ (a.1 = q.1 ∧ a.2 ≤ q.2) then a else q).1 ≤ q.1 := by
      by_cases hc : a.1 < q.1 ∨ (a.1 = q.1 ∧ a.2 ≤ q.2)
      · rw [if_pos hc]
        rcases hc with hc | hc
        · exact ⟨le_rfl, Nat.le_of_lt hc⟩
        · exact ⟨le_rfl, Nat.le_of_eq hc.1⟩
      · rw [if_neg hc]
        push_neg at hc
        exact ⟨hc.1, le_rfl⟩
    have hmin : (pqMinAux (if a.1 < q.1 ∨ (a.1 = q.1 ∧ a.2 ≤ q.2) then a else q) rest).1 ≤
        (if a.1 < q.1 ∨ (a.1 = q.1 ∧ a.2 ≤ q.2) then a else q).1 :=
      ih _ _ (List.mem_cons_self _ _)
    show (pqMinAux (if _ then a else q) rest).1 ≤ b.1
    rcases List.mem_cons.mp hb with hba | hb
    · rw [hba]
      exact le_trans hmin hstep.1
    rcases List.mem_cons.mp hb with hbq | hb
    · rw [hbq]
      exact le_trans hmin hstep.2
    · exact ih _ b (List.mem_cons_of_mem _ hb)

/-- Helper: one neighbour relaxation leaves the visited set and matrix rows
alone, touches distances/previous only at its own neighbour, and only
appends to the queue. -/
theorem relaxNbr_frame {n : ℕ} (w : Fin n → Fin n → ℕ) (u : Fin n) (d : ℕ)
    (st : DState n) (v : Fin n) :
    (relaxNbr w u d st v).visited = st.visited ∧
    (relaxNbr w u d st v).distRow = st.distRow ∧
    (relaxNbr w u d st v).pathRow = st.pathRow ∧
    (∀ v', v' ≠ v → (relaxNbr w u d st v).distances v' = st.distances v' ∧
      (relaxNbr w u d st v).previous v' = st.previous v') ∧
    (∀ kv ∈ st.pq, kv ∈ (relaxNbr w u d st v).pq) ∧
    (∀ kv ∈ (relaxNbr w u d st v).pq, kv ∈ st.pq ∨
      (relaxCond w u d st v ∧ kv = ((d + w u v : ℕ), v))) := by
  unfold relaxNbr
  by_cases h1 : v ∈ st.visited
  · rw [if_pos h1]
    exact ⟨rfl, rfl, rfl, fun v' _ => ⟨rfl, rfl⟩, fun kv hkv => hkv, fun kv hkv => Or.inl hkv⟩
  rw [if_neg h1]
  by_cases h2 : 0 < w u v
  · rw [if_pos h2]
    by_cases h3 : ((d + w u v : ℕ) : ℕ∞) < st.distances v
    · rw [if_pos h3]
      refine ⟨rfl, rfl, rfl, fun v' hv' => ?_, fun kv hkv => ?_, fun kv hkv => ?_⟩
      · exact ⟨Function.update_noteq hv' _ _, Function.update_noteq hv' _ _⟩
      · exact List.mem_append_left _ hkv
      · rcases List.mem_append.mp hkv with h | h
        · exact Or.inl h
        · rw [List.mem_singleton] at h
          exact Or.inr ⟨⟨h1, h2, h3⟩, h⟩
    · rw [if_neg h3]
      exact ⟨rfl, rfl, rfl, fun v' _ => ⟨rfl, rfl⟩, fun kv hkv => hkv, fun kv hkv => Or.inl hkv⟩
  · rw [if_neg h2]
    exact ⟨rfl, rfl, rfl, fun v' _ => ⟨rfl, rfl⟩, fun kv hkv => hkv, fun kv hkv => Or.inl hkv⟩

/-- Helper: effect of one neighbour relaxation at its own neighbour. -/
theorem relaxNbr_self {n : ℕ} (w : Fin n → Fin n → ℕ) (u : Fin n) (d : ℕ)
    (st : DState n) (v : Fin n) :
    (relaxCond w u d st v →
      (relaxNbr w u d st v).distances v = ((d + w u v : ℕ) : ℕ∞) ∧
      (relaxNbr w u d st v).previous v = some u ∧
      ((d + w u v : ℕ), v) ∈ (relaxNbr w u d st v).pq) ∧
    (¬ relaxCond w u d st v →
      (relaxNbr w u d st v).distances v = st.distances v ∧
      (relaxNbr w u d st v).previous v = st.previous v) := by
  unfold relaxNbr relaxCond
  by_cases h1 : v ∈ st.visited
  · rw [if_pos h1]
    exact ⟨fun hc => absurd h1 hc.1, fun _ => ⟨rfl, rfl⟩⟩
  rw [if_neg h1]
  by_cases h2 : 0 < w u v
  · rw [if_pos h2]
    by_cases h3 : ((d + w u v : ℕ) : ℕ∞) < st.distances v
    · rw [if_pos h3]
      refine ⟨fun _ => ⟨Function.update_same _ _ _, Function.update_same _ _ _, ?_⟩,
        fun hc => absurd ⟨h1, h2, h3⟩ hc⟩
      exact List.mem_append_right _ (List.mem_singleton_self _)
    · rw [if_neg h3]
      exact ⟨fun hc => absurd hc.2.2 h3, fun _ => ⟨rfl, rfl⟩⟩
  · rw [if_neg h2]
    exact ⟨fun hc => absurd hc.2.1 h2, fun _ => ⟨rfl, rfl⟩⟩

/-- Helper: full characterization of the relaxation pass over a duplicate-free
neighbour list: matrix rows and visited set unchanged; each listed neighbour
updated exactly when its relax condition (w.r.t. the incoming state) holds;
unlisted nodes unchanged; the queue only grows, and any new entry is the push
for a relaxed neighbour. -/
theorem relaxAll_spec {n : ℕ} (w : Fin n → Fin n → ℕ) (u : Fin n) (d : ℕ) :
    ∀ (l : List (Fin n)) (st : DState n), l.Nodup →
      ((l.foldl (relaxNbr w u d) st).visited = st.visited ∧
       (l.foldl (relaxNbr w u d) st).distRow = st.distRow ∧
       (l.foldl (relaxNbr w u d) st).pathRow = st.pathRow) ∧
      (∀ v, v ∉ l → (l.foldl (relaxNbr w u d) st).distances v = st.distances v ∧
        (l.foldl (relaxNbr w u d) st).previous v = st.previous v) ∧
      (∀ v ∈ l,
        (relaxCond w u d st v →
          (l.foldl (relaxNbr w u d) st).distances v = ((d + w u v : ℕ) : ℕ∞) ∧
          (l.foldl (relaxNbr w u d) st).previous v = some u ∧
          ((d + w u v : ℕ), v) ∈ (l.foldl (relaxNbr w u d) st).pq) ∧
        (¬ relaxCond w u d st v →
          (l.foldl (relaxNbr w u d) st).distances v = st.distances v ∧
          (l.foldl (relaxNbr w u d) st).previous v = st.previous v)) ∧
      (∀ kv ∈ st.pq, kv ∈ (l.foldl (relaxNbr w u d) st).pq) ∧
      (∀ kv ∈ (l.foldl (relaxNbr w u d) st).pq, kv ∈ st.pq ∨
        ∃ v ∈ l, relaxCond w u d st v ∧ kv = ((d + w u v : ℕ), v)) := by
  intro l
  induction l with
  | nil =>
    intro st _
    exact ⟨⟨rfl, rfl, rfl⟩, fun v _ => ⟨rfl, rfl⟩, fun v hv => absurd hv (List.not_mem_nil v),
      fun kv hkv => hkv, fun kv hkv => Or.inl hkv⟩
  | cons v₀ l' ih =>
    intro st hnd
    have hnd' := hnd.of_cons
    have hv₀ : v₀ ∉ l' := (List.nodup_cons.mp hnd).1
    obtain ⟨hframe0, hrow0, hpath0, hother0, hpqf0, hpqb0⟩ := relaxNbr_frame w u d st v₀
    obtain ⟨hself0, hself0n⟩ := relaxNbr_self w u d st v₀
    obtain ⟨hrows, hout, hin, hpqf, hpqb⟩ := ih (relaxNbr w u d st v₀) hnd'
    have hcond : ∀ v, v ≠ v₀ →
        (relaxCond w u d (relaxNbr w u d st v₀) v ↔ relaxCond w u d st v) := by
      intro v hv
      unfold relaxCond
      rw [hframe0, (hother0 v hv).1]
    rw [List.foldl_cons]
    refine ⟨⟨by rw [hrows.1, hframe0], by rw [hrows.2.1, hrow0], by rw [hrows.2.2, hpath0]⟩,
      ?_, ?_, ?_, ?_⟩
    · intro v hv
      have hvn : v ≠ v₀ := fun h => hv (h ▸ List.mem_cons_self _ _)
      have hvl : v ∉ l' := fun h => hv (List.mem_cons_of_mem _ h)
      obtain ⟨hd, hp⟩ := hout v hvl
      obtain ⟨hd0, hp0⟩ := hother0 v hvn
      exact ⟨by rw [hd, hd0], by rw [hp, hp0]⟩
    · intro v hv
      rcases List.mem_cons.mp hv with hveq | hvl
      · subst hveq
        constructor
        · intro hc
          obtain ⟨hd0, hp0, hq0⟩ := hself0 hc
          obtain ⟨hd, hp⟩ := hout v hv₀
          exact ⟨by rw [hd, hd0], by rw [hp, hp0], hpqf _ hq0⟩
        · intro hc
          obtain ⟨hd0, hp0⟩ := hself0n hc
          obtain ⟨hd, hp⟩ := hout v hv₀
          exact ⟨by rw [hd, hd0], by rw [hp, hp0]⟩
      · have hvn : v ≠ v₀ := fun h => hv₀ (h ▸ hvl)
        obtain ⟨hc1, hc2⟩ := hin v hvl
        constructor
        · intro hc
          obtain ⟨hd, hp, hq⟩ := hc1 ((hcond v hvn).mpr hc)
          exact ⟨hd, hp, hq⟩
        · intro hc
          obtain ⟨hd, hp⟩ := hc2 (fun hcc => hc ((hcond v hvn).mp hcc))
          obtain ⟨hd0, hp0⟩ := hother0 v hvn
          exact ⟨by rw [hd, hd0], by rw [hp, hp0]⟩
    · intro kv hkv
      exact hpqf kv (hpqf0 kv hkv)
    · intro kv hkv
      rcases hpqb kv hkv with h | ⟨v, hvl, hc, hkveq⟩
      · rcases hpqb0 kv h with h | ⟨hc, hkveq⟩
        · exact Or.inl h
        · exact Or.inr ⟨v₀, List.mem_cons_self _ _, hc, hkveq⟩
      · have hvn : v ≠ v₀ := fun h => hv₀ (h ▸ hvl)
        exact Or.inr ⟨v, List.mem_cons_of_mem _ hvl, (hcond v hvn).mp hc, hkveq⟩

/-- Helper: a popped, not-yet-visited entry is settled at the exact shortest
distance (its key): the key is an attained walk weight, and any walk to it
must cross the frontier at no smaller cost. -/
theorem pop_correct {n : ℕ} {w : Fin n → Fin n → ℕ} {s : Fin n} {st : DState n}
    (hInv : DInv w s st) {a : ℕ × Fin n} {rest : List (ℕ × Fin n)}
    (hpq : st.pq = a :: rest) (hu : (pqMinAux a rest).2 ∉ st.visited) :
    st.distances (pqMinAux a rest).2 = ((pqMinAux a rest).1 : ℕ∞) ∧
    IsDistW w s (pqMinAux a rest).2 (pqMinAux a rest).1 := by
  set m := pqMinAux a rest with hm
  have hmem : m ∈ st.pq := by rw [hpq]; exact pqMinAux_mem rest a
  have hmin : ∀ b ∈ st.pq, m.1 ≤ b.1 := by rw [hpq]; exact pqMinAux_key_le rest a
  obtain ⟨hdle, hpw⟩ := hInv.pqk m hmem
  have hne : st.distances m.2 ≠ ⊤ := by
    intro h
    rw [h, top_le_iff] at hdle
    exact WithTop.coe_ne_top hdle
  obtain ⟨k, hkmem, hkval⟩ := hInv.inpq m.2 hu hne
  have hdk : st.distances m.2 = (m.1 : ℕ∞) := by
    have h1 : m.1 ≤ k := hmin (k, m.2) hkmem
    rw [← hkval] at hdle ⊢
    have h2 : k ≤ m.1 := by exact_mod_cast hdle
    rw [Nat.le_antisymm h2 h1]
  refine ⟨hdk, hpw, ?_⟩
  intro c hc
  rcases path_reach_frontier w s st.visited m.2 c hu hc with
    hs | ⟨x, y, c₁, hxV, hyV, hxy, hsx, hle⟩
  · have h0 : st.distances s ≠ ⊤ := by
      rw [hInv.dist_s]
      simp
    obtain ⟨k0, hk0mem, hk0val⟩ := hInv.inpq s hs h0
    have hk00 : k0 = 0 := by
      have : (k0 : ℕ∞) = 0 := by rw [hk0val, hInv.dist_s]
      exact_mod_cast this
    have := hmin (k0, s) hk0mem
    omega
  · obtain ⟨cx, hcx, hcxD, -⟩ := hInv.settled x hxV
    have hxle : cx ≤ c₁ := hcxD.2 c₁ hsx
    have hfr := hInv.frontier x hxV y hyV hxy
    rw [hcx] at hfr
    have hfr' : st.distances y ≤ ((cx + w x y : ℕ) : ℕ∞) := by
      rw [Nat.cast_add]
      exact hfr
    have hyne : st.distances y ≠ ⊤ := by
      intro h
      rw [h, top_le_iff] at hfr'
      exact WithTop.coe_ne_top hfr'
    obtain ⟨ky, hkymem, hkyval⟩ := hInv.inpq y hyV hyne
    have h1 : m.1 ≤ ky := hmin (ky, y) hkymem
    have h2 : ky ≤ cx + w x y := by
      rw [← hkyval] at hfr'
      exact_mod_cast hfr'
    omega

/-- Helper: the traceback loop returns a genuine first hop: walking back the
`previous` chain from a finite-distance node strictly decreases the recorded
distance, ends at a neighbour of the source, and leaves a walk from that
neighbour to the traced node within the distance budget. -/
theorem traceback_spec {n : ℕ} {w : Fin n → Fin n → ℕ} {s : Fin n} {st : DState n}
    (hInv : DInv w s st) (u : Fin n) (d : ℕ) :
    ∀ (fuel : ℕ) (node : Fin n) (cn : ℕ), st.distances node = (cn : ℕ∞) → node ≠ s →
      cn < fuel → cn ≤ d → HasPW w node u (d - cn) →
      0 < w s (traceback st.previous s fuel node) ∧
      ∃ c₁, d = w s (traceback st.previous s fuel node) + c₁ ∧
        HasPW w (traceback st.previous s fuel node) u c₁ := by
  intro fuel
  induction fuel with
  | zero => intro node cn _ _ hlt; omega
  | succ fuel ih =>
    intro node cn hdist hns hfuel hcd hwalk
    cases hprev : st.previous node with
    | none =>
      rcases hInv.prevNone node hprev with h | h
      · exact absurd h hns
      · rw [hdist] at h
        exact absurd h (WithTop.coe_ne_top)
    | some p =>
      obtain ⟨hpV, hpw, hpd⟩ := hInv.prevSome node p hprev
      obtain ⟨cp, hcp, -, -⟩ := hInv.settled p hpV
      have hcn : cn = cp + w p node := by
        rw [hdist, hcp] at hpd
        exact_mod_cast hpd
      by_cases hps : p = s
      · have hcp0 : cp = 0 := by
          rw [hps, hInv.dist_s] at hcp
          exact_mod_cast hcp.symm
        have htb : traceback st.previous s (fuel + 1) node = node := by
          unfold traceback
          simp only [hprev]
          rw [if_pos hps]
        rw [htb]
        refine ⟨by rw [← hps]; exact hpw, d - cn, by rw [← hps]; omega, hwalk⟩
      · have htb : traceback st.previous s (fuel + 1) node = traceback st.previous s fuel p := by
          conv_lhs => rw [traceback]
          simp only [hprev]
          rw [if_neg hps]
        rw [htb]
        have hwalk' : HasPW w p u (d - cp) := by
          have := HasPW_cons hpw hwalk
          have harith : w p node + (d - cn) = d - cp := by omega
          rw [harith] at this
          exact this
        exact ih p cp hcp hps (by omega) (by omega) hwalk'

/-- Helper: popping an already-settled entry (lazy deletion) preserves the
invariant. -/
theorem dinv_erase {n : ℕ} {w : Fin n → Fin n → ℕ} {s : Fin n} {st : DState n}
    (hInv : DInv w s st) {a : ℕ × Fin n} {rest : List (ℕ × Fin n)}
    (hpq : st.pq = a :: rest) (hu : (pqMinAux a rest).2 ∈ st.visited) :
    DInv w s { st with pq := (a :: rest).erase (pqMinAux a rest) } := by
  refine ⟨hInv.dist_s, hInv.settled, hInv.sound, hInv.frontier, ?_, ?_,
    hInv.unrow, hInv.prevSome, hInv.prevNone, hInv.pathOk⟩
  · intro v hv hne
    obtain ⟨k, hk, hkv⟩ := hInv.inpq v hv hne
    rw [hpq] at hk
    refine ⟨k, ?_, hkv⟩
    have hne2 : (k, v) ≠ pqMinAux a rest := by
      intro h
      apply hv
      have := congrArg Prod.snd h
      simp only at this
      rw [this]
      exact hu
    exact (List.mem_erase_of_ne hne2).mpr hk
  · intro kv hkv
    refine hInv.pqk kv ?_
    rw [hpq]
    exact List.erase_subset _ _ hkv

/-- Helper: settling the popped minimum (recording its row entries) and then
relaxing all its neighbours preserves the invariant. -/
theorem dinv_settle {n : ℕ} {w : Fin n → Fin n → ℕ} {s : Fin n} {st : DState n}
    (hInv : DInv w s st) {a : ℕ × Fin n} {rest : List (ℕ × Fin n)}
    (hpq : st.pq = a :: rest) (hu : (pqMinAux a rest).2 ∉ st.visited) :
    DInv w s (relaxAll w (pqMinAux a rest).2 (pqMinAux a rest).1
      (settleState st s (pqMinAux a rest)
        ((a :: rest).erase (pqMinAux a rest)))) := by
  obtain ⟨hdu, hIsD⟩ := pop_correct hInv hpq hu
  set m := pqMinAux a rest with hmdef
  set st1 : DState n := settleState st s m ((a :: rest).erase m) with hst1def
  have hst1 : st1 =
    { st with
        pq := (a :: rest).erase m
        visited := insert m.2 st.visited
        distRow := Function.update st.distRow m.2 ((m.1 : ℕ) : ℕ∞)
        pathRow := Function.update st.pathRow m.2
          (some (firstHop st s m.2 m.1)) } := rfl
  obtain ⟨⟨hvis, hrow, hpath⟩, -, hin, hpqf, hpqb⟩ :=
    relaxAll_spec w m.2 m.1 (List.finRange n) st1 (List.nodup_finRange n)
  set st2 := relaxAll w m.2 m.1 st1 with hst2def
  have hfold : st2 = (List.finRange n).foldl (relaxNbr w m.2 m.1) st1 := rfl
  rw [← hfold] at hvis hrow hpath hin hpqf hpqb
  have hA : ∀ v, relaxCond w m.2 m.1 st1 v →
      st2.distances v = ((m.1 + w m.2 v : ℕ) : ℕ∞) ∧ st2.previous v = some m.2 ∧
      ((m.1 + w m.2 v : ℕ), v) ∈ st2.pq :=
    fun v => (hin v (List.mem_finRange v)).1
  have hB : ∀ v, ¬ relaxCond w m.2 m.1 st1 v →
      st2.distances v = st.distances v ∧ st2.previous v = st.previous v :=
    fun v => (hin v (List.mem_finRange v)).2
  have hcondI : ∀ v, relaxCond w m.2 m.1 st1 v ↔
      (v ∉ insert m.2 st.visited ∧ 0 < w m.2 v ∧
        ((m.1 + w m.2 v : ℕ) : ℕ∞) < st.distances v) := fun v => Iff.rfl
  have hmono : ∀ v, st2.distances v ≤ st.distances v := by
    intro v
    by_cases hc : relaxCond w m.2 m.1 st1 v
    · rw [(hA v hc).1]
      exact le_of_lt ((hcondI v).mp hc).2.2
    · rw [(hB v hc).1]
  have hvisfix : ∀ v ∈ st.visited, st2.distances v = st.distances v ∧
      st2.previous v = st.previous v := by
    intro v hv
    exact hB v (fun hc => ((hcondI v).mp hc).1 (Finset.mem_insert_of_mem hv))
  have hufix : st2.distances m.2 = ((m.1 : ℕ) : ℕ∞) ∧ st2.previous m.2 = st.previous m.2 := by
    have := hB m.2 (fun hc => ((hcondI m.2).mp hc).1 (Finset.mem_insert_self _ _))
    exact ⟨by rw [this.1, hdu], this.2⟩
  constructor
  · -- dist_s
    by_cases hc : relaxCond w m.2 m.1 st1 s
    · exfalso
      have := ((hcondI s).mp hc).2.2
      rw [hInv.dist_s] at this
      simp at this
    · rw [(hB s hc).1, hInv.dist_s]
  · -- settled
    intro u' hu'
    rw [hvis, hst1] at hu'
    rcases Finset.mem_insert.mp hu' with hequ | hmem
    · subst hequ
      refine ⟨m.1, hufix.1, hIsD, ?_⟩
      rw [hrow]
      show Function.update st.distRow m.2 ((m.1 : ℕ) : ℕ∞) m.2 = _
      rw [Function.update_same]
    · obtain ⟨c, hc1, hc2, hc3⟩ := hInv.settled u' hmem
      have hne : u' ≠ m.2 := fun h => hu (h ▸ hmem)
      refine ⟨c, by rw [(hvisfix u' hmem).1]; exact hc1, hc2, ?_⟩
      rw [hrow]
      show Function.update st.distRow m.2 ((m.1 : ℕ) : ℕ∞) u' = _
      rw [Function.update_noteq hne]
      exact hc3
  · -- sound
    intro v c hvc
    by_cases hc : relaxCond w m.2 m.1 st1 v
    · obtain ⟨hd, -, -⟩ := hA v hc
      rw [hd] at hvc
      have : m.1 + w m.2 v = c := by exact_mod_cast hvc
      rw [← this]
      exact HasPW_snoc hIsD.1 ((hcondI v).mp hc).2.1
    · rw [(hB v hc).1] at hvc
      exact hInv.sound v c hvc
  · -- frontier
    intro x hx v hv hxv
    rw [hvis, hst1] at hx hv
    rcases Finset.mem_insert.mp hx with heqx | hmemx
    · rw [heqx] at hxv ⊢
      by_cases hc : relaxCond w m.2 m.1 st1 v
      · rw [(hA v hc).1, hufix.1, Nat.cast_add]
      · have hnlt : ¬ ((m.1 + w m.2 v : ℕ) : ℕ∞) < st.distances v := by
          intro hlt
          exact hc ((hcondI v).mpr ⟨hv, hxv, hlt⟩)
        rw [(hB v hc).1, hufix.1]
        rw [not_lt, Nat.cast_add] at hnlt
        exact hnlt
    · have hvV : v ∉ st.visited := fun h => hv (Finset.mem_insert_of_mem h)
      have hfr := hInv.frontier x hmemx v hvV hxv
      calc st2.distances v ≤ st.distances v := hmono v
        _ ≤ st.distances x + (w x v : ℕ∞) := hfr
        _ = st2.distances x + (w x v : ℕ∞) := by rw [(hvisfix x hmemx).1]
  · -- inpq
    intro v hv hne
    rw [hvis, hst1] at hv
    by_cases hc : relaxCond w m.2 m.1 st1 v
    · obtain ⟨hd, -, hq⟩ := hA v hc
      exact ⟨m.1 + w m.2 v, hq, by rw [hd]⟩
    · obtain ⟨hd, -⟩ := hB v hc
      rw [hd] at hne
      have hvV : v ∉ st.visited := fun h => hv (Finset.mem_insert_of_mem h)
      obtain ⟨k, hk, hkv⟩ := hInv.inpq v hvV hne
      rw [hpq] at hk
      have hne2 : (k, v) ≠ m := by
        intro h
        apply hv
        have := congrArg Prod.snd h
        simp only at this
        rw [this]
        exact Finset.mem_insert_self _ _
      refine ⟨k, hpqf _ ?_, by rw [hd]; exact hkv⟩
      show (k, v) ∈ st1.pq
      rw [hst1]
      exact (List.mem_erase_of_ne hne2).mpr hk
  · -- pqk
    intro kv hkv
    rcases hpqb kv hkv with h | ⟨v, -, hc, hkveq⟩
    · have h' : kv ∈ (a :: rest).erase m := by rw [hst1] at h; exact h
      have hst : kv ∈ st.pq := by
        rw [hpq]
        exact List.erase_subset _ _ h'
      obtain ⟨h1, h2⟩ := hInv.pqk kv hst
      exact ⟨le_trans (hmono kv.2) h1, h2⟩
    · obtain ⟨hd, -, -⟩ := hA v hc
      rw [hkveq]
      refine ⟨by rw [hd], ?_⟩
      exact HasPW_snoc hIsD.1 ((hcondI v).mp hc).2.1
  · -- unrow
    intro v hv
    rw [hvis, hst1] at hv
    have hvV : v ∉ st.visited := fun h => hv (Finset.mem_insert_of_mem h)
    have hvm : v ≠ m.2 := fun h => hv (h ▸ Finset.mem_insert_self _ _)
    obtain ⟨h1, h2⟩ := hInv.unrow v hvV
    constructor
    · rw [hrow]
      show Function.update st.distRow m.2 ((m.1 : ℕ) : ℕ∞) v = ⊤
      rw [Function.update_noteq hvm]
      exact h1
    · rw [hpath]
      show Function.update st.pathRow m.2 (some (firstHop st s m.2 m.1)) v = none
      rw [Function.update_noteq hvm]
      exact h2
  · -- prevSome
    intro v t hvt
    by_cases hc : relaxCond w m.2 m.1 st1 v
    · obtain ⟨hd, hp, -⟩ := hA v hc
      rw [hp] at hvt
      cases Option.some.inj hvt
      refine ⟨by rw [hvis, hst1]; exact Finset.mem_insert_self _ _,
        ((hcondI v).mp hc).2.1, ?_⟩
      rw [hd, hufix.1, Nat.cast_add]
    · obtain ⟨hd, hp⟩ := hB v hc
      rw [hp] at hvt
      obtain ⟨h1, h2, h3⟩ := hInv.prevSome v t hvt
      refine ⟨by rw [hvis, hst1]; exact Finset.mem_insert_of_mem h1, h2, ?_⟩
      rw [hd, (hvisfix t h1).1]
      exact h3
  · -- prevNone
    intro v hv
    by_cases hc : relaxCond w m.2 m.1 st1 v
    · obtain ⟨-, hp, -⟩ := hA v hc
      rw [hp] at hv
      exact Option.noConfusion hv
    · obtain ⟨hd, hp⟩ := hB v hc
      rw [hp] at hv
      rcases hInv.prevNone v hv with h | h
      · exact Or.inl h
      · exact Or.inr (by rw [hd]; exact h)
  · -- pathOk
    intro u' hu'
    rw [hvis, hst1] at hu'
    rcases Finset.mem_insert.mp hu' with hequ | hmem
    · rw [hequ]
      unfold PathRowOK
      by_cases hus : m.2 = s
      · rw [if_pos hus]
        rw [hpath]
        show Function.update st.pathRow m.2 (some (firstHop st s m.2 m.1)) m.2 = _
        rw [Function.update_same]
        unfold firstHop
        rw [if_pos hus]
      · rw [if_neg hus]
        obtain ⟨hws, c₁, hdsum, hwalk⟩ :=
          traceback_spec hInv m.2 m.1 (m.1 + 1) m.2 m.1 hdu hus (Nat.lt_succ_self _)
            le_rfl (by rw [Nat.sub_self]; exact HasPW_refl w m.2)
        refine ⟨traceback st.previous s (m.1 + 1) m.2, c₁, ?_, hws, ?_, hwalk⟩
        · rw [hpath]
          show Function.update st.pathRow m.2 (some (firstHop st s m.2 m.1)) m.2 = _
          rw [Function.update_same]
          unfold firstHop
          rw [if_neg hus]
        · rw [hufix.1, ← hdsum]
    · have hne : u' ≠ m.2 := fun h => hu (h ▸ hmem)
      have hold := hInv.pathOk u' hmem
      unfold PathRowOK at hold ⊢
      have hprw : st2.pathRow u' = st.pathRow u' := by
        rw [hpath]
        show Function.update st.pathRow m.2 (some (firstHop st s m.2 m.1)) u' = _
        rw [Function.update_noteq hne]
      by_cases hus : u' = s
      · rw [if_pos hus] at hold ⊢
        rw [hprw]
        exact hold
      · rw [if_neg hus] at hold ⊢
        obtain ⟨mm, c₁, h1, h2, h3, h4⟩ := hold
        exact ⟨mm, c₁, by rw [hprw]; exact h1, h2,
          by rw [(hvisfix u' hmem).1]; exact h3, h4⟩

/-- Helper: the invariant is preserved by the whole loop. -/
theorem dloop_inv {n : ℕ} (w : Fin n → Fin n → ℕ) (s : Fin n) :
    ∀ (fuel : ℕ) (st : DState n), DInv w s st → DInv w s (dloop w s fuel st) := by
  intro fuel
  induction fuel with
  | zero => intro st h; exact h
  | succ fuel ih =>
    intro st h
    rcases hpq : st.pq with _ | ⟨a, rest⟩
    · simp only [dloop, hpq]
      exact h
    · simp only [dloop, hpq]
      by_cases hvis : (pqMinAux a rest).2 ∈ st.visited
      · rw [if_pos hvis]
        exact ih _ (dinv_erase h hpq hvis)
      · rw [if_neg hvis]
        exact ih _ (dinv_settle h hpq hvis)

/-- Helper: one neighbour relaxation pushes at most one queue entry. -/
theorem relaxNbr_pq_len {n : ℕ} (w : Fin n → Fin n → ℕ) (u : Fin n) (d : ℕ)
    (st : DState n) (v : Fin n) :
    (relaxNbr w u d st v).pq.length ≤ st.pq.length + 1 := by
  unfold relaxNbr
  by_cases h1 : v ∈ st.visited
  · rw [if_pos h1]; omega
  rw [if_neg h1]
  by_cases h2 : 0 < w u v
  · rw [if_pos h2]
    by_cases h3 : ((d + w u v : ℕ) : ℕ∞) < st.distances v
    · rw [if_pos h3]
      simp
    · rw [if_neg h3]; omega
  · rw [if_neg h2]; omega

/-- Helper: the relaxation pass pushes at most one entry per neighbour. -/
theorem relaxAll_pq_len {n : ℕ} (w : Fin n → Fin n → ℕ) (u : Fin n) (d : ℕ) :
    ∀ (l : List (Fin n)) (st : DState n),
      (l.foldl (relaxNbr w u d) st).pq.length ≤ st.pq.length + l.length := by
  intro l
  induction l with
  | nil => intro st; simp
  | cons v l' ih =>
    intro st
    rw [List.foldl_cons]
    calc (l'.foldl (relaxNbr w u d) (relaxNbr w u d st v)).pq.length
        ≤ (relaxNbr w u d st v).pq.length + l'.length := ih _
      _ ≤ st.pq.length + 1 + l'.length := by
          have := relaxNbr_pq_len w u d st v
          omega
      _ = st.pq.length + (v :: l').length := by rw [List.length_cons]; omega

/-- Helper: the relaxation pass never touches the visited set. -/
theorem relaxAll_visited {n : ℕ} (w : Fin n → Fin n → ℕ) (u : Fin n) (d : ℕ) :
    ∀ (l : List (Fin n)) (st : DState n),
      (l.foldl (relaxNbr w u d) st).visited = st.visited := by
  intro l
  induction l with
  | nil => intro st; rfl
  | cons v l' ih =>
    intro st
    rw [List.foldl_cons, ih, (relaxNbr_frame w u d st v).1]

/-- Helper: `relaxAll` in terms of the two previous lemmas. -/
theorem relaxAll_visited_eq {n : ℕ} (w : Fin n → Fin n → ℕ) (u : Fin n) (d : ℕ)
    (st : DState n) : (relaxAll w u d st).visited = st.visited :=
  relaxAll_visited w u d (List.finRange n) st

/-- Helper: `relaxAll` pushes at most `n` new queue entries. -/
theorem relaxAll_len {n : ℕ} (w : Fin n → Fin n → ℕ) (u : Fin n) (d : ℕ)
    (st : DState n) : (relaxAll w u d st).pq.length ≤ st.pq.length + n := by
  have h := relaxAll_pq_len w u d (List.finRange n) st
  rw [List.length_finRange] at h
  exact h

/-- Helper: with fuel at least the potential `|pq| + (n+1)·(n − |visited|)`,
the loop drains the queue (each iteration removes one entry and either only
shrinks the queue or settles a new node while pushing at most n entries). -/
theorem dloop_pq_empty {n : ℕ} (w : Fin n → Fin n → ℕ) (s : Fin n) :
    ∀ (fuel : ℕ) (st : DState n),
      st.pq.length + (n + 1) * (n - st.visited.card) ≤ fuel →
      (dloop w s fuel st).pq = [] := by
  intro fuel
  induction fuel with
  | zero =>
    intro st h
    have h0 : st.pq.length = 0 := by omega
    show (dloop w s 0 st).pq = []
    exact List.length_eq_zero.mp h0
  | succ fuel ih =>
    intro st h
    rcases hpq : st.pq with _ | ⟨a, rest⟩
    · simp only [dloop, hpq]
    · simp only [dloop, hpq]
      have hplen : st.pq.length = rest.length + 1 := by rw [hpq]; rfl
      have herlen : ((a :: rest).erase (pqMinAux a rest)).length = rest.length := by
        rw [List.length_erase_of_mem (pqMinAux_mem rest a)]
        rfl
      by_cases hvis : (pqMinAux a rest).2 ∈ st.visited
      · rw [if_pos hvis]
        apply ih
        show ((a :: rest).erase (pqMinAux a rest)).length + (n + 1) * (n - st.visited.card) ≤ fuel
        rw [herlen]
        omega
      · rw [if_neg hvis]
        apply ih
        have hcard : (insert (pqMinAux a rest).2 st.visited).card = st.visited.card + 1 :=
          Finset.card_insert_of_not_mem hvis
        have hcardle : st.visited.card + 1 ≤ n := by
          have h2 := Finset.card_le_univ (insert (pqMinAux a rest).2 st.visited)
          rw [hcard] at h2
          simpa using h2
        have hvz : (relaxAll w (pqMinAux a rest).2 (pqMinAux a rest).1
            (settleState st s (pqMinAux a rest)
              ((a :: rest).erase (pqMinAux a rest)))).visited =
            insert (pqMinAux a rest).2 st.visited :=
          relaxAll_visited_eq w (pqMinAux a rest).2 (pqMinAux a rest).1
            (settleState st s (pqMinAux a rest) ((a :: rest).erase (pqMinAux a rest)))
        have hlen2 := relaxAll_len w (pqMinAux a rest).2 (pqMinAux a rest).1
          (settleState st s (pqMinAux a rest) ((a :: rest).erase (pqMinAux a rest)))
        have hsq : (settleState st s (pqMinAux a rest)
            ((a :: rest).erase (pqMinAux a rest))).pq.length = rest.length := herlen
        have hsplit : (n + 1) * (n - st.visited.card) =
            (n + 1) * (n - (st.visited.card + 1)) + (n + 1) := by
          have h1 : n - st.visited.card = (n - (st.visited.card + 1)) + 1 := by omega
          rw [h1, Nat.mul_add, Nat.mul_one]
        rw [hvz, hcard]
        omega

/-- Helper: the initial distances array is 0 at the source and ∞ elsewhere. -/
theorem dijkstraInit_distances {n : ℕ} (s v : Fin n) :
    (dijkstraInit n s).distances v = if v = s then (0 : ℕ∞) else ⊤ := by
  show Function.update (fun _ => (⊤ : ℕ∞)) s (0 : ℕ∞) v = _
  by_cases h : v = s
  · rw [if_pos h, h, Function.update_same]
  · rw [if_neg h, Function.update_noteq h]

/-- Helper: the initial per-source state satisfies the invariant. -/
theorem dinv_init {n : ℕ} (w : Fin n → Fin n → ℕ) (s : Fin n) :
    DInv w s (dijkstraInit n s) := by
  constructor
  · rw [dijkstraInit_distances, if_pos rfl]
  · intro u hu
    exact absurd hu (Finset.not_mem_empty u)
  · intro v c hvc
    rw [dijkstraInit_distances] at hvc
    by_cases hv : v = s
    · rw [if_pos hv] at hvc
      have hc0 : c = 0 := by exact_mod_cast hvc.symm
      rw [hc0, hv]
      exact HasPW_refl w s
    · rw [if_neg hv] at hvc
      exact absurd hvc.symm WithTop.coe_ne_top
  · intro x hx
    exact absurd hx (Finset.not_mem_empty x)
  · intro v hv hne
    rw [dijkstraInit_distances] at hne ⊢
    by_cases hvs : v = s
    · refine ⟨0, ?_, ?_⟩
      · show ((0 : ℕ), v) ∈ [((0 : ℕ), s)]
        rw [hvs]
        exact List.mem_singleton_self _
      · rw [if_pos hvs]
        exact Nat.cast_zero
    · rw [if_neg hvs] at hne
      exact absurd rfl hne
  · intro kv hkv
    have hkv2 : kv = ((0 : ℕ), s) := List.eq_of_mem_singleton hkv
    rw [hkv2]
    constructor
    · rw [dijkstraInit_distances, if_pos rfl]
      simp
    · exact HasPW_refl w s
  · intro v _
    exact ⟨rfl, rfl⟩
  · intro v t hvt
    exact Option.noConfusion hvt
  · intro v _
    by_cases hvs : v = s
    · exact Or.inl hvs
    · refine Or.inr ?_
      rw [dijkstraInit_distances, if_neg hvs]
  · intro u hu
    exact absurd hu (Finset.not_mem_empty u)

/-- Helper: once the queue is empty, every node reachable from the source has
been settled (otherwise the first frontier edge out of the visited set would
have left a finite tentative distance, hence a queue entry). -/
theorem dinv_complete {n : ℕ} {w : Fin n → Fin n → ℕ} {s : Fin n} {st : DState n}
    (hInv : DInv w s st) (hpq : st.pq = []) (v : Fin n) (c : ℕ)
    (hpw : HasPW w s v c) : v ∈ st.visited := by
  by_contra hv
  have hnotop : ∀ u : Fin n, u ∉ st.visited → st.distances u = ⊤ := by
    intro u hu
    by_contra hne
    obtain ⟨k, hk, -⟩ := hInv.inpq u hu hne
    rw [hpq] at hk
    exact absurd hk (List.not_mem_nil _)
  have hs : s ∈ st.visited := by
    by_contra hsv
    have h0 := hnotop s hsv
    rw [hInv.dist_s] at h0
    simp at h0
  rcases path_reach_frontier w s st.visited v c hv hpw with h | ⟨x, y, _, hx, hy, hwxy, -, -⟩
  · exact h hs
  · obtain ⟨cx, hcx, -, -⟩ := hInv.settled x hx
    have hfr := hInv.frontier x hx y hy hwxy
    have htop := hnotop y hy
    rw [htop, hcx, ← Nat.cast_add] at hfr
    exact WithTop.coe_ne_top (top_le_iff.mp hfr)

/-- Helper: the per-source run keeps the invariant. -/
theorem dijkstraFrom_dinv {n : ℕ} (w : Fin n → Fin n → ℕ) (s : Fin n) :
    DInv w s (dijkstraFrom w s) :=
  dloop_inv w s (n * (n + 1) + 1) (dijkstraInit n s) (dinv_init w s)

/-- Helper: the fuel `n·(n+1)+1` drains the queue of the per-source run. -/
theorem dijkstraFrom_pq {n : ℕ} (w : Fin n → Fin n → ℕ) (s : Fin n) :
    (dijkstraFrom w s).pq = [] := by
  apply dloop_pq_empty
  have h1 : (dijkstraInit n s).pq.length = 1 := rfl
  have h2 : (dijkstraInit n s).visited.card = 0 := rfl
  rw [h1, h2, Nat.sub_zero, Nat.mul_comm]
  exact Nat.le_of_eq (Nat.add_comm 1 (n * (n + 1)))

/-- Helper: every node reachable from the source is settled by its run. -/
theorem dijkstraFrom_visited_of_reach {n : ℕ} (w : Fin n → Fin n → ℕ)
    (i j : Fin n) (c : ℕ) (h : HasPW w i j c) :
    j ∈ (dijkstraFrom w i).visited :=
  dinv_complete (dijkstraFrom_dinv w i) (dijkstraFrom_pq w i) j c h

/-- Helper: the recorded diagonal distance is 0. -/
theorem dijkstraFrom_diag {n : ℕ} (w : Fin n → Fin n → ℕ) (i : Fin n) :
    (dijkstraFrom w i).distRow i = (0 : ℕ∞) := by
  have hvis := dijkstraFrom_visited_of_reach w i i 0 (HasPW_refl w i)
  obtain ⟨c₀, -, hdist, hrow⟩ := (dijkstraFrom_dinv w i).settled i hvis
  have h0 : c₀ = 0 := IsDistW_unique hdist (IsDistW_self w i)
  rw [hrow, h0, Nat.cast_zero]

/-- Helper: a finite recorded distance means the target was settled. -/
theorem dijkstraFrom_row_settled {n : ℕ} (w : Fin n → Fin n → ℕ) (i j : Fin n)
    (c : ℕ) (h : (dijkstraFrom w i).distRow j = (c : ℕ∞)) :
    j ∈ (dijkstraFrom w i).visited := by
  by_contra hj
  obtain ⟨h1, -⟩ := (dijkstraFrom_dinv w i).unrow j hj
  rw [h1] at h
  exact WithTop.coe_ne_top h.symm

/-- Helper: whenever the recorded distance from `i` to `j` is the finite value
`c`, repeatedly following the next-hop matrix from `i` toward `j` reaches `j`
along positive edges whose weights sum to exactly `c`.  Strong induction on
`c`: the first hop `m` of row `i` satisfies `c = w i m + c₁` with `c₁` the
exact distance from `m` to `j`, which row `m` also records. -/
theorem follows_of_dist {n : ℕ} (w : Fin n → Fin n → ℕ) :
    ∀ (c : ℕ) (i j : Fin n), (dijkstraFrom w i).distRow j = (c : ℕ∞) →
      Follows w (precompute_matrices w).2 j i c := by
  intro c
  induction c using Nat.strong_induction_on with
  | _ c ih =>
    intro i j hc
    by_cases hij : i = j
    · rw [← hij, dijkstraFrom_diag w i] at hc
      have h0 : c = 0 := by exact_mod_cast hc.symm
      rw [h0, hij]
      exact Follows.done
    · have hvis := dijkstraFrom_row_settled w i j c hc
      have hInv := dijkstraFrom_dinv w i
      obtain ⟨c', hdist, hIsD, hrow⟩ := hInv.settled j hvis
      have hcc : c' = c := by
        rw [hrow] at hc
        exact_mod_cast hc
      rw [hcc] at hdist hIsD
      have hpok := hInv.pathOk j hvis
      unfold PathRowOK at hpok
      rw [if_neg (fun h => hij h.symm)] at hpok
      obtain ⟨m, c₁, hnxt, hwm, hdsum, hpw⟩ := hpok
      rw [hdist] at hdsum
      have hceq : c = w i m + c₁ := by exact_mod_cast hdsum
      have hmin : ∀ c'', HasPW w m j c'' → c₁ ≤ c'' := by
        intro c'' h''
        have hle := hIsD.2 _ (HasPW_cons hwm h'')
        omega
      have hvm := dijkstraFrom_visited_of_reach w m j c₁ hpw
      obtain ⟨cm, -, hIsDm, hrowm⟩ := (dijkstraFrom_dinv w m).settled j hvm
      have hcm : cm = c₁ := IsDistW_unique hIsDm ⟨hpw, hmin⟩
      rw [hcm] at hrowm
      have hlt : c₁ < c := by omega
      have hfm := ih c₁ hlt m j hrowm
      have hnxt2 : (precompute_matrices w).2 i j = some m := hnxt
      rw [hceq]
      exact Follows.step i m c₁ hnxt2 hwm hfm

/-- C3: for every weighted graph (any node count, integer weight matrix with 0
meaning no edge) the matrices of precompute_matrices satisfy: the diagonal of
the distance matrix is 0; and whenever i ≠ j and distance_matrix[i][j] is the
finite value c, the sequence obtained by repeatedly applying path_matrix
starting from i reaches j, every consecutive pair is joined by an edge of
positive weight, and those weights sum to exactly c. -/
theorem precompute_correct {n : ℕ} (w : Fin n → Fin n → ℕ) :
    (∀ i : Fin n, (precompute_matrices w).1 i i = (0 : ℕ∞)) ∧
    (∀ (i j : Fin n) (c : ℕ), i ≠ j → (precompute_matrices w).1 i j = (c : ℕ∞) →
      Follows w (precompute_matrices w).2 j i c) := by
  constructor
  · intro i
    exact dijkstraFrom_diag w i
  · intro i j c _ hc
    exact follows_of_dist w c i j hc

/-- C3 (witness): in the 3-node line graph the computed distance 0→2 is 2 and
the hop chain followed through the path matrix delivers it. -/
theorem precompute_correct_witness :
    (precompute_matrices lineW).1 0 2 = ((2 : ℕ) : ℕ∞) ∧
    Follows lineW (precompute_matrices lineW).2 2 0 2 :=
  ⟨by decide, (precompute_correct lineW).2 0 2 2 (by decide) (by decide)⟩

end Wolt
